import Mathlib

/-!
Verification of the ConfigParser library (ConfigParser.hpp) against its
natural-language specification.

Strings are modelled as lists of characters (`Str`), so that every string
operation is an executable, inductively provable Lean function.  The generic
string utilities of `strutil.h` (trim, split, starts_with, ends_with,
contains) are code of the repository that is not part of the core header;
they are modelled from the spec where noted.  File I/O is modelled as the
spec prescribes: an abstract "read all lines / write all lines" interface,
with a file system as an association list from paths to contents, and the
C++ `while (!eof) getline` loop modelled by splitting the content on the
newline character (which reproduces the extra empty read at end of file).
-/

set_option synthInstance.maxSize 512

namespace ConfigParserProof

/-- C++ `std::string`, modelled as a list of characters. -/
abbrev Str := List Char

/-- Convert a Lean string literal to the `Str` model. -/
def strOf (s : String) : Str := s.toList

/-- Whitespace characters recognised by `std::isspace` in the default locale. -/
def isSpaceC (c : Char) : Bool :=
  c = ' ' ∨ c = '\t' ∨ c = '\n' ∨ c = '\x0b' ∨ c = '\x0c' ∨ c = '\r'

/-- Modelled from the spec: `strutil::trim` / `trim_copy` (strutil.h is code of
the repository not under src/); removes leading and trailing whitespace. -/
def trimS (l : Str) : Str :=
  ((l.dropWhile isSpaceC).reverse.dropWhile isSpaceC).reverse

/-- Modelled from the spec: `strutil::starts_with` — prefix test. -/
def startsWithC (l p : Str) : Bool := p.isPrefixOf l

/-- Modelled from the spec: `strutil::ends_with` — suffix test. -/
def endsWithC (l p : Str) : Bool := p.isSuffixOf l

/-- Modelled from the spec: `strutil::contains` for the single-character
needle `"="` used by `isValue` — substring containment. -/
def containsChar (l : Str) (c : Char) : Bool := l.any (· = c)

/-- `ConfigError` enum of ConfigParser.hpp. -/
inductive ConfigError
  | FILE_NOT_FOUND
  | FILE_OPEN_ERROR
  | FILE_READ_ERROR
  | NO_ERROR
deriving DecidableEq, Repr

/-- `ConfigType` enum of ConfigParser.hpp. -/
inductive ConfigType
  | emptyLine
  | comment
  | sectionHeader
  | value
deriving DecidableEq, Repr

/-- `ConfigLine` struct: one structural line record. -/
structure ConfigLine where
  type : ConfigType
  content : Str
deriving DecidableEq, Repr

/-- `ConfigValue` stores its payload as a single string (`data` member). -/
abbrev ConfigValue := Str

/-- `std::map<std::string, ConfigValue>` modelled as an association list with
unique keys; only membership and lookup are observed by the program. -/
abbrev ValueMap := List (Str × ConfigValue)

/-- `dict.contains(key)`. -/
def mapContains (m : ValueMap) (k : Str) : Bool := m.any (fun e => e.1 = k)

/-- `dict.find(key)` / read access. -/
def mapLookup : ValueMap → Str → Option ConfigValue
  | [], _ => none
  | e :: m, k => if e.1 = k then some e.2 else mapLookup m k

/-- `dict.emplace(key, v)`: inserts only if the key is absent. -/
def mapEmplace (m : ValueMap) (k : Str) (v : ConfigValue) : ValueMap :=
  if mapContains m k then m else m ++ [(k, v)]

/-- `dict[key] = v` on `std::map`: replaces in place if present, inserts
otherwise. -/
def mapAssign (m : ValueMap) (k : Str) (v : ConfigValue) : ValueMap :=
  if mapContains m k then m.map (fun e => if e.1 = k then (k, v) else e)
  else m ++ [(k, v)]

/-- `dict.erase(key)` / extraction of a node: removes the entry. -/
def mapErase (m : ValueMap) (k : Str) : ValueMap :=
  m.filter (fun e => ¬ e.1 = k)

/-- Non-const `dict[key]` on `std::map` used by `IniParser::write`: returns the
mapped value, default-inserting an empty `ConfigValue` when the key is absent. -/
def mapGetDefault (m : ValueMap) (k : Str) : ConfigValue × ValueMap :=
  match mapLookup m k with
  | some v => (v, m)
  | none => ([], m ++ [(k, [])])

/-- `ConfigParser::removeElement` on a string vector: erases the first
occurrence of `v`, if any. -/
def removeElement : List Str → Str → List Str
  | [], _ => []
  | x :: xs, v => if x = v then xs else x :: removeElement xs v

/-- `ConfigSection`: the insertion-ordered key/value store (`dict` plus the
parallel `keys` vector recording insertion order; iteration via
`begin()/end()` walks `keys`). -/
structure ConfigSection where
  dict : ValueMap := []
  keys : List Str := []
deriving DecidableEq, Repr

namespace ConfigSection

/-- `ConfigSection::insert`: appends to both `keys` and `dict` only when the
key is absent (first writer wins). -/
def insert (s : ConfigSection) (key : Str) (v : ConfigValue) : ConfigSection :=
  if mapContains s.dict key then s
  else { s with keys := s.keys ++ [key], dict := mapEmplace s.dict key v }

/-- `ConfigSection::pop`: `dict.extract(key)` then `node.mapped()`.  When the
key is absent the extracted node handle is empty and `node.mapped()` is
undefined behaviour; this is modelled as `none`.  When present, returns the
prior value and the state with the key removed from both containers. -/
def pop (s : ConfigSection) (key : Str) : Option (ConfigValue × ConfigSection) :=
  match mapLookup s.dict key with
  | some v =>
      some (v, { s with dict := mapErase s.dict key, keys := removeElement s.keys key })
  | none => none

/-- `ConfigSection::remove`: guarded removal from both containers. -/
def remove (s : ConfigSection) (key : Str) : ConfigSection :=
  if mapContains s.dict key then
    { s with dict := mapErase s.dict key, keys := removeElement s.keys key }
  else s

/-- `ConfigSection::update`: replaces the value in place when the key exists. -/
def update (s : ConfigSection) (key : Str) (v : ConfigValue) : ConfigSection :=
  if mapContains s.dict key then { s with dict := mapAssign s.dict key v }
  else s

/-- `ConfigSection::exists`. -/
def existsKey (s : ConfigSection) (key : Str) : Bool := mapContains s.dict key

/-- `ConfigSection::clear`: empties both containers. -/
def clear (_s : ConfigSection) : ConfigSection := {}

/-- `ConfigSection::get`: returns the value, or fails (`std::out_of_range`,
the spec's KeyNotFound) when the key is absent; no state change. -/
def get (s : ConfigSection) (key : Str) : Option ConfigValue :=
  if mapContains s.dict key then mapLookup s.dict key else none

/-- `ConfigSection::operator[]` (mutable subscript): returns the existing
value, or autocreates the key with empty text, appending it to `keys`. -/
def subscript (s : ConfigSection) (key : Str) : ConfigValue × ConfigSection :=
  if mapContains s.dict key then ((mapLookup s.dict key).getD [], s)
  else ([], { s with dict := mapEmplace s.dict key [], keys := s.keys ++ [key] })

/-- `section[key] = v`: the mutable subscript followed by
`ConfigValue::operator=` (which overwrites the stored text through the
returned reference). -/
def subscriptAssign (s : ConfigSection) (key : Str) (v : ConfigValue) : ConfigSection :=
  let s1 := (s.subscript key).2
  { s1 with dict := mapAssign s1.dict key v }

end ConfigSection

/-- `Parser::isComment`: after trimming, the line starts with `#`. -/
def isComment (str : Str) : Bool := startsWithC (trimS str) (strOf "#")

/-- `Parser::isEmptyLine`: the line trims to the empty string. -/
def isEmptyLine (str : Str) : Bool := trimS str = []

/-- `Parser::isValue`: the line contains the `=` delimiter. -/
def isValue (str : Str) : Bool := containsChar str '='

/-- `Parser::isSection`: after trimming, bracket-delimited. -/
def isSection (str : Str) : Bool :=
  startsWithC (trimS str) (strOf "[") && endsWithC (trimS str) (strOf "]")

/-- Split a string at the first `=`, returning the parts before and after it. -/
def splitFirstEq : Str → Option (Str × Str)
  | [] => none
  | c :: cs =>
      if c = '=' then some ([], cs)
      else (splitFirstEq cs).map (fun p => (c :: p.1, p.2))

/-- Modelled from the spec: `Parser::extractValue` computes
`split(trim_copy(str), '=')` where `split` comes from strutil.h, code of the
repository that is not under src/.  Per the spec's read algorithm a value
line is "split on first `=` into `(key, value)`, trim both"; the guard in the
callers checks that the split yielded at least two parts. -/
def extractValue (str : Str) : List Str :=
  let t := trimS str
  match splitFirstEq t with
  | some (a, b) => [trimS a, trimS b]
  | none => [t]

/-- `Parser::extractSection`: trim, drop the trailing `]` and leading `[`. -/
def extractSection (str : Str) : Str :=
  ((trimS str).dropLast).drop 1

/-- `Parser::appendLine`. -/
def appendLine (lines : List ConfigLine) (t : ConfigType) (content : Str) :
    List ConfigLine :=
  lines ++ [⟨t, content⟩]

/-- `Parser::removeLine`: erases the first line whose content equals the
handle, regardless of the line's type. -/
def removeLine : List ConfigLine → Str → List ConfigLine
  | [], _ => []
  | l :: ls, h => if l.content = h then ls else l :: removeLine ls h

/-- The abstract file system of the spec: paths mapped to whole-file
contents. -/
abbrev FileSys := List (Str × Str)

/-- `std::filesystem::exists` / opening for read. -/
def fsLookup : FileSys → Str → Option Str
  | [], _ => none
  | e :: fs, p => if e.1 = p then some e.2 else fsLookup fs p

/-- Opening for write with truncation: replace or create the file. -/
def fsUpdate : FileSys → Str → Str → FileSys
  | [], p, c => [(p, c)]
  | e :: fs, p, c => if e.1 = p then (p, c) :: fs else e :: fsUpdate fs p c

/-- The sequence of strings produced by the C++ `while (!file.eof())
{ std::getline(file, line); … }` loop on a file with the given content:
splitting on `'\n'`.  A trailing newline (always produced by the writers,
which terminate every line with `std::endl`) makes the loop process one extra
empty line before `eof()` turns true, which this model reproduces: the result
always ends with the part after the last newline, `[]` for such files. -/
def splitNL : Str → List Str
  | [] => [[]]
  | c :: cs =>
      if c = '\n' then [] :: splitNL cs
      else
        match splitNL cs with
        | [] => [[c]]
        | t :: ts => (c :: t) :: ts

/-- Contents written by the serialisers: every emitted line followed by the
newline of `std::endl`. -/
def mkContent (ls : List Str) : Str := (ls.map (fun l => l ++ ['\n'])).flatten

/-- `IniParser`: the flat-dialect document.  Inherits `Parser`'s `path`,
`errorCode` and `lines`, and `ConfigSection`'s `dict`/`keys` (field `sec`). -/
structure IniParser where
  path : Str := []
  errorCode : ConfigError := ConfigError.NO_ERROR
  lines : List ConfigLine := []
  sec : ConfigSection := {}
deriving DecidableEq, Repr

namespace IniParser

/-- `Parser::getError`. -/
def getError (p : IniParser) : ConfigError := p.errorCode

/-- `Parser::flush`. -/
def flush (p : IniParser) : IniParser := { p with errorCode := ConfigError.NO_ERROR }

/-- `IniParser::clear` (also its `erase` override): clears the section and the
line list. -/
def clear (p : IniParser) : IniParser := { p with sec := {}, lines := [] }

/-- `IniParser::insert`: appends a `CONFIG_VALUE` line entry before
delegating to `ConfigSection::insert`, only when the key is absent. -/
def insert (p : IniParser) (key : Str) (v : ConfigValue) : IniParser :=
  if mapContains p.sec.dict key then p
  else { p with lines := appendLine p.lines ConfigType.value key,
                sec := p.sec.insert key v }

/-- `IniParser::pop`: removes the first matching line when the key exists,
then delegates to `ConfigSection::pop` (whose absent-key path is undefined
behaviour, modelled as `none`). -/
def pop (p : IniParser) (key : Str) : Option (ConfigValue × IniParser) :=
  let p1 := if mapContains p.sec.dict key
            then { p with lines := removeLine p.lines key } else p
  (p1.sec.pop key).map (fun r => (r.1, { p1 with sec := r.2 }))

/-- `IniParser::remove`. -/
def remove (p : IniParser) (key : Str) : IniParser :=
  if mapContains p.sec.dict key then
    { p with lines := removeLine p.lines key, sec := p.sec.remove key }
  else p

/-- `IniParser::update` (inherited from `ConfigSection`, no line change). -/
def update (p : IniParser) (key : Str) (v : ConfigValue) : IniParser :=
  { p with sec := p.sec.update key v }

/-- `IniParser::operator[]`: appends a `CONFIG_VALUE` line entry when the key
is absent, then delegates to `ConfigSection::operator[]`. -/
def subscript (p : IniParser) (key : Str) : ConfigValue × IniParser :=
  let p1 := if mapContains p.sec.dict key then p
            else { p with lines := appendLine p.lines ConfigType.value key }
  let r := p1.sec.subscript key
  (r.1, { p1 with sec := r.2 })

/-- `ini[key] = v`: mutable subscript followed by assignment through the
returned reference. -/
def subscriptAssign (p : IniParser) (key : Str) (v : ConfigValue) : IniParser :=
  let p1 := (p.subscript key).2
  { p1 with sec := { p1.sec with dict := mapAssign p1.sec.dict key v } }

/-- One iteration of the `IniParser::read` line loop. -/
def readLine (p : IniParser) (line : Str) : IniParser :=
  if isComment line then
    { p with lines := appendLine p.lines ConfigType.comment (trimS line) }
  else if isEmptyLine line then
    { p with lines := appendLine p.lines ConfigType.emptyLine (trimS line) }
  else if isValue line then
    match extractValue line with
    | k :: v :: _ =>
        ({ p with lines := appendLine p.lines ConfigType.value k }).insert k v
    | _ => p
  else p

/-- `IniParser::read`: on a missing file sets `FILE_NOT_FOUND`; otherwise
processes each `getline` result in order.  (The `FILE_OPEN_ERROR` branch
corresponds to an operating-system open failure, which the abstract file
system does not produce.) -/
def read (p : IniParser) (fs : FileSys) : IniParser :=
  match fsLookup fs p.path with
  | some content => (splitNL content).foldl readLine p
  | none => { p with errorCode := ConfigError.FILE_NOT_FOUND }

/-- `Parser::readFile`: reads only when a path is bound. -/
def readFile (p : IniParser) (fs : FileSys) : IniParser :=
  if p.path = [] then p else p.read fs

/-- `Parser::load`: `flush(); erase(); path = _path; readFile();` where the
virtual `erase` is `IniParser::erase`, i.e. `clear`. -/
def load (p : IniParser) (path : Str) (fs : FileSys) : IniParser :=
  ({ p.flush.clear with path := path }).readFile fs

/-- `Parser::reload`: `erase(); readFile();` — note: no `flush()`. -/
def reload (p : IniParser) (fs : FileSys) : IniParser :=
  p.clear.readFile fs

end IniParser

/-- One iteration of `IniParser::write`'s loop over one line entry: blanks
and comments are emitted verbatim, a `CONFIG_VALUE` entry is emitted as
`"{content} = {dict[content]}"` where `dict[line.content]` (non-const
`std::map` subscript) may extend the dict with a default-constructed value
when the content is not a key; `CONFIG_SECTION` entries have no branch. -/
def iniWriteStep (acc : List Str × ValueMap) (l : ConfigLine) :
    List Str × ValueMap :=
  match l.type with
  | ConfigType.emptyLine => (acc.1 ++ [l.content], acc.2)
  | ConfigType.comment => (acc.1 ++ [l.content], acc.2)
  | ConfigType.value =>
      let r := mapGetDefault acc.2 l.content
      (acc.1 ++ [l.content ++ strOf " = " ++ r.1], r.2)
  | ConfigType.sectionHeader => acc

namespace IniParser

/-- The body of `IniParser::write`'s loop: the emitted text lines together
with the possibly grown dict. -/
def writeEmit (p : IniParser) : List Str × ValueMap :=
  p.lines.foldl iniWriteStep ([], p.sec.dict)

/-- `IniParser::write`: a no-op without a bound path; otherwise truncates and
rewrites the file from the line list, reflecting any dict growth caused by
the map subscript back into the document. -/
def write (p : IniParser) (fs : FileSys) : IniParser × FileSys :=
  if p.path = [] then (p, fs)
  else
    let r := p.writeEmit
    ({ p with sec := { p.sec with dict := r.2 } },
     fsUpdate fs p.path (mkContent r.1))

/-- `Parser::save`: rebinds the path when given a non-empty one, then writes. -/
def save (p : IniParser) (path : Str) (fs : FileSys) : IniParser × FileSys :=
  let p1 := if path = [] then p else { p with path := path }
  p1.write fs

end IniParser

/-- `std::unordered_map<std::string, ConfigSection>` modelled as an
association list with unique keys (only membership and lookup are observed). -/
abbrev SectionMapL := List (Str × ConfigSection)

/-- `_sections.contains(name)`. -/
def smContains (m : SectionMapL) (k : Str) : Bool := m.any (fun e => e.1 = k)

/-- Section lookup. -/
def smLookup : SectionMapL → Str → Option ConfigSection
  | [], _ => none
  | e :: m, k => if e.1 = k then some e.2 else smLookup m k

/-- `_sections[name] = s`: insert-or-assign. -/
def smAssign (m : SectionMapL) (k : Str) (s : ConfigSection) : SectionMapL :=
  if smContains m k then m.map (fun e => if e.1 = k then (k, s) else e)
  else m ++ [(k, s)]

/-- `_sections.erase(name)`. -/
def smErase (m : SectionMapL) (k : Str) : SectionMapL :=
  m.filter (fun e => ¬ e.1 = k)

/-- Non-const `_sections[name]`: default-inserts an empty section when
absent. -/
def smGetDefault (m : SectionMapL) (k : Str) : ConfigSection × SectionMapL :=
  match smLookup m k with
  | some s => (s, m)
  | none => ({}, m ++ [(k, ({} : ConfigSection))])

/-- `CfgParser`: the sectioned-dialect document.  `keys` is the ordered
vector of section names; `sections` the name-to-section map (`_sections`). -/
structure CfgParser where
  path : Str := []
  errorCode : ConfigError := ConfigError.NO_ERROR
  lines : List ConfigLine := []
  keys : List Str := []
  sections : SectionMapL := []
deriving DecidableEq, Repr

namespace CfgParser

/-- `Parser::getError`. -/
def getError (p : CfgParser) : ConfigError := p.errorCode

/-- `Parser::flush`. -/
def flush (p : CfgParser) : CfgParser := { p with errorCode := ConfigError.NO_ERROR }

/-- `CfgParser::clear` (also its `erase` override). -/
def clear (p : CfgParser) : CfgParser :=
  { p with keys := [], sections := [], lines := [] }

/-- `CfgParser::addSection`: when the name is new, appends it to the name
order, appends a `CONFIG_SECTION` line entry holding the bare name, and
registers an empty section. -/
def addSection (p : CfgParser) (name : Str) : CfgParser :=
  if smContains p.sections name then p
  else { p with keys := p.keys ++ [name],
                lines := appendLine p.lines ConfigType.sectionHeader name,
                sections := smAssign p.sections name {} }

/-- `CfgParser::removeSection`. -/
def removeSection (p : CfgParser) (name : Str) : CfgParser :=
  if smContains p.sections name then
    { p with keys := removeElement p.keys name,
             lines := removeLine p.lines name,
             sections := smErase p.sections name }
  else p

/-- `CfgParser::section` / `operator[]`: fails (`std::out_of_range`, the
spec's SectionNotFound) when the name is absent. -/
def sectionGet (p : CfgParser) (name : Str) : Option ConfigSection :=
  smLookup p.sections name

/-- `CfgParser::sections()`: the ordered section-name vector. -/
def sectionNames (p : CfgParser) : List Str := p.keys

/-- `cfg[name][key] = v` through the public subscript, which throws when the
section does not exist. -/
def setValue (p : CfgParser) (name key : Str) (v : ConfigValue) :
    Option CfgParser :=
  match smLookup p.sections name with
  | some s => some { p with sections := smAssign p.sections name (s.subscriptAssign key v) }
  | none => none

/-- `_sections[section_name][value[0]] = value[1]` as executed inside
`CfgParser::read`: the non-const map subscript default-inserts the section. -/
def readSetValue (p : CfgParser) (name key : Str) (v : ConfigValue) : CfgParser :=
  let r := smGetDefault p.sections name
  { p with sections := smAssign r.2 name (r.1.subscriptAssign key v) }

/-- One `getline` step of `CfgParser::read`, as a state machine over the
stream of lines.  The C++ function is two nested loops: an outer loop that
records comments and blanks and opens sections, and an inner loop that,
after a section header, consumes subsequent lines into that section until
the first blank line (consumed and discarded) or end of input.  Both loops
pull lines from the same stream one at a time, so they are equivalently a
single fold whose accumulator also carries the name of the currently open
section (`some name` while the inner loop runs, `none` in the outer loop).
A section header is recorded twice: once by the outer loop with the raw
bracketed text, once by `addSection` with the extracted name.  Inside a
section body, lines that are neither blank nor value lines — comments
included — are silently dropped, as are value lines outside any section. -/
def readStep : CfgParser × Option Str → Str → CfgParser × Option Str
  | (p, some name), ln =>
      if isEmptyLine ln then (p, none)
      else if isValue ln then
        match extractValue ln with
        | k :: v :: _ => (p.readSetValue name k v, some name)
        | _ => (p, some name)
      else (p, some name)
  | (p, none), ln =>
      if isComment ln then
        ({ p with lines := appendLine p.lines ConfigType.comment (trimS ln) }, none)
      else if isEmptyLine ln then
        ({ p with lines := appendLine p.lines ConfigType.emptyLine (trimS ln) }, none)
      else if isSection ln then
        let name := extractSection ln
        let p1 := { p with lines := appendLine p.lines ConfigType.sectionHeader ln }
        (p1.addSection name, some name)
      else (p, none)

/-- `CfgParser::read`. -/
def read (p : CfgParser) (fs : FileSys) : CfgParser :=
  match fsLookup fs p.path with
  | some content => ((splitNL content).foldl readStep (p, none)).1
  | none => { p with errorCode := ConfigError.FILE_NOT_FOUND }

/-- `Parser::readFile`. -/
def readFile (p : CfgParser) (fs : FileSys) : CfgParser :=
  if p.path = [] then p else p.read fs

/-- `Parser::load` with the virtual `erase` resolving to `CfgParser::erase`. -/
def load (p : CfgParser) (path : Str) (fs : FileSys) : CfgParser :=
  ({ p.flush.clear with path := path }).readFile fs

/-- `Parser::reload` — again without `flush()`. -/
def reload (p : CfgParser) (fs : FileSys) : CfgParser :=
  p.clear.readFile fs

end CfgParser

/-- One iteration of the `CfgParser::write` loop over one line entry:
comments and blanks are emitted verbatim; a `CONFIG_SECTION` entry emits
`"[{content}]"` and then one `"{key} = {value}"` line per key of the
looked-up section in live iteration order, followed by the two empty lines
produced by `file << "\n" << std::endl`.  `none` models the
`std::out_of_range` thrown by `(*this)[…]` when a header's content names no
existing section.  `CONFIG_VALUE` entries have no branch in the loop and are
skipped. -/
def cfgWriteStep (secs : SectionMapL) (acc : Option (List Str)) (l : ConfigLine) :
    Option (List Str) :=
  acc.bind (fun out =>
    match l.type with
    | ConfigType.emptyLine => some (out ++ [l.content])
    | ConfigType.comment => some (out ++ [l.content])
    | ConfigType.sectionHeader =>
        match smLookup secs l.content with
        | some s =>
            some (out ++ [('[' :: l.content) ++ [']']]
                      ++ s.keys.map (fun k => k ++ strOf " = " ++ (s.subscript k).1)
                      ++ [[], []])
        | none => none
    | ConfigType.value => some out)

namespace CfgParser

/-- The text lines emitted by `CfgParser::write`. -/
def writeEmit (p : CfgParser) : Option (List Str) :=
  p.lines.foldl (cfgWriteStep p.sections) (some [])

/-- `CfgParser::write`: no-op without a bound path; `none` when the loop
throws. -/
def write (p : CfgParser) (fs : FileSys) : Option (CfgParser × FileSys) :=
  if p.path = [] then some (p, fs)
  else
    match p.writeEmit with
    | some out => some (p, fsUpdate fs p.path (mkContent out))
    | none => none

/-- `Parser::save` for the sectioned parser. -/
def save (p : CfgParser) (path : Str) (fs : FileSys) : Option (CfgParser × FileSys) :=
  let p1 := if path = [] then p else { p with path := path }
  p1.write fs

end CfgParser

/-! ### Concrete scenarios and observation functions used by the claims -/

/-- Scenario B of the spec, built exactly as in the demo program: sections
`AppInfo` (`name`, `version`) and `Settings` (`debug_mode`,
`max_connections`), populated through the public subscript (which fails if
`addSection` had not created the section). -/
def scenarioB : Option CfgParser := do
  let p := ({} : CfgParser).addSection (strOf "AppInfo")
  let p ← p.setValue (strOf "AppInfo") (strOf "name") (strOf "ConfigParserDemo")
  let p ← p.setValue (strOf "AppInfo") (strOf "version") (strOf "1.0")
  let p := p.addSection (strOf "Settings")
  let p ← p.setValue (strOf "Settings") (strOf "debug_mode") (strOf "true")
  let p ← p.setValue (strOf "Settings") (strOf "max_connections") (strOf "100")
  pure p

/-- Scenario B after `save("demo.cfg")` into an empty file system followed by
`reload()`. -/
def scenarioBReloaded : Option CfgParser := do
  let p ← scenarioB
  let r ← p.save (strOf "demo.cfg") []
  pure (r.1.reload r.2)

/-- Everything claim C2 observes about a sectioned document: the ordered
section names and, for each, its keys in iteration order with their
string-form values. -/
def cfgObservation (p : CfgParser) : List Str × List (Option (List (Str × Option ConfigValue))) :=
  (p.sectionNames,
   p.sectionNames.map (fun n =>
     (p.sectionGet n).map (fun s => s.keys.map (fun k => (k, mapLookup s.dict k)))))

/-- The key-order/mapping membership invariant of the spec (§3 OrderedDict):
the `keys` sequence is duplicate-free and coincides in membership with the
mapping's key set.  (Iteration follows `keys` by construction of
`begin()/end()`, which return iterators into the `keys` vector.) -/
def secInv (s : ConfigSection) : Prop :=
  s.keys.Nodup ∧ (∀ k ∈ s.keys, mapContains s.dict k = true) ∧
  (∀ e ∈ s.dict, e.1 ∈ s.keys)

instance (s : ConfigSection) : Decidable (secInv s) := by
  rw [secInv]; infer_instance

/-- Number of line entries whose content equals `k`. -/
def lineCount (lines : List ConfigLine) (k : Str) : Nat :=
  lines.countP (fun l => l.content = k)

/-- Well-formedness of a flat document as produced by the programmatic API:
the membership invariant, every line entry's content is a live key, and
every live key has exactly one line entry. -/
def iniWF (p : IniParser) : Prop :=
  secInv p.sec ∧
  (∀ l ∈ p.lines, l.content ∈ p.sec.keys) ∧
  (∀ k ∈ p.sec.keys, lineCount p.lines k = 1)

instance (p : IniParser) : Decidable (iniWF p) := by
  rw [iniWF]; infer_instance

/-- The public operations of claim C7 on a flat document (`get` has no state
effect; `pop` of an absent key faults in C++ — the container state at the
fault is unchanged, which is how it is modelled here; `save` may grow the
dict through the map subscript in `write`). -/
inductive IniOp
  | insertOp (k v : Str)
  | updateOp (k v : Str)
  | subscriptRead (k : Str)
  | subscriptAssignOp (k v : Str)
  | getOp (k : Str)
  | popOp (k : Str)
  | removeOp (k : Str)
  | clearOp
  | saveOp (q : Str)

/-- State effect of one public operation. -/
def applyIniOp (p : IniParser) : IniOp → IniParser
  | IniOp.insertOp k v => p.insert k v
  | IniOp.updateOp k v => p.update k v
  | IniOp.subscriptRead k => (p.subscript k).2
  | IniOp.subscriptAssignOp k v => p.subscriptAssign k v
  | IniOp.getOp _ => p
  | IniOp.popOp k => ((p.pop k).map (fun r => r.2)).getD p
  | IniOp.removeOp k => p.remove k
  | IniOp.clearOp => p.clear
  | IniOp.saveOp q => (p.save q []).1

/-- A whole sequence of public operations. -/
def applyIniOps (p : IniParser) (ops : List IniOp) : IniParser :=
  ops.foldl applyIniOp p

/-- The text line one line entry contributes to `IniParser::write`'s output
(when its content is a live key, so the map subscript does not grow the
dict). -/
def iniEmitLine (m : ValueMap) (l : ConfigLine) : List Str :=
  match l.type with
  | ConfigType.emptyLine => [l.content]
  | ConfigType.comment => [l.content]
  | ConfigType.value => [l.content ++ strOf " = " ++ (mapLookup m l.content).getD []]
  | ConfigType.sectionHeader => []

/-- The file system and loaded-then-mutated document of the C7
counterexample: load duplicates the ValueRef entry for `k`; `pop` removes
only the first of the two entries together with the key; the subsequent
`save` then meets the stale second entry, and the non-const map subscript
`dict[line.content]` re-inserts `k` into the mapping without touching the
key order. -/
def c7Fs : FileSys := [(strOf "f", strOf "k = v\n")]

/-- The C7 counterexample document after `load("f")`, `pop("k")`, `save()`. -/
def c7Final : IniParser :=
  let loaded := ({} : IniParser).load (strOf "f") c7Fs
  let popped := ((loaded.pop (strOf "k")).map (fun r => r.2)).getD loaded
  (popped.save [] c7Fs).1

/-- A sample operation sequence used as the witness input for claim C7. -/
def c7Ops : List IniOp :=
  [IniOp.insertOp (strOf "a") (strOf "1"),
   IniOp.subscriptRead (strOf "b"),
   IniOp.updateOp (strOf "a") (strOf "2"),
   IniOp.popOp (strOf "a"),
   IniOp.saveOp (strOf "f")]

/-- The block of text lines that one line entry contributes to the output of
`CfgParser::write` (empty for `CONFIG_VALUE` entries and, vacuously, for
headers without a section, which in fact abort the write). -/
def cfgBlockOf (secs : SectionMapL) (l : ConfigLine) : List Str :=
  match l.type with
  | ConfigType.emptyLine => [l.content]
  | ConfigType.comment => [l.content]
  | ConfigType.value => []
  | ConfigType.sectionHeader =>
      match smLookup secs l.content with
      | some s =>
          [('[' :: l.content) ++ [']']]
            ++ s.keys.map (fun k => k ++ strOf " = " ++ (s.subscript k).1)
            ++ [[], []]
      | none => []

/-- A one-section document `[A]` with the single pair `k = v`, used to
settle claim C6. -/
def c6Doc : CfgParser :=
  ((({} : CfgParser).addSection (strOf "A")).setValue (strOf "A")
      (strOf "k") (strOf "v")).getD {}

/-- An abstract flat-dialect document entry of claim C1: a comment line, a
blank line, or a key/value pair. -/
inductive FlatEntry
  | commentE (c : Str)
  | blankE
  | pairE (k v : Str)
deriving DecidableEq, Repr

/-- The line-model entry recorded for one flat entry. -/
def flatLineOf : FlatEntry → ConfigLine
  | FlatEntry.commentE c => ⟨ConfigType.comment, c⟩
  | FlatEntry.blankE => ⟨ConfigType.emptyLine, []⟩
  | FlatEntry.pairE k _ => ⟨ConfigType.value, k⟩

/-- The key/value pairs of a flat entry list, in order. -/
def entryPairs : List FlatEntry → List (Str × Str)
  | [] => []
  | FlatEntry.pairE k v :: es => (k, v) :: entryPairs es
  | FlatEntry.commentE _ :: es => entryPairs es
  | FlatEntry.blankE :: es => entryPairs es

/-- The flat document "built purely from comment lines, blank lines, and
key/value pairs": one line entry per comment/blank, one ValueRef line entry
per pair, and the dict/key order holding the pairs in order — exactly the
state the flat document's own API produces for the pairs. -/
def mkFlat (es : List FlatEntry) : IniParser :=
  { lines := es.map flatLineOf,
    sec := { dict := entryPairs es, keys := (entryPairs es).map Prod.fst } }

/-- A string with no leading and no trailing whitespace (what `trim`
preserves). -/
def isTrimmed (l : Str) : Prop :=
  l.dropWhile isSpaceC = l ∧ l.reverse.dropWhile isSpaceC = l.reverse

instance (l : Str) : Decidable (isTrimmed l) := by
  rw [isTrimmed]; infer_instance

/-- The string contains no newline (it fits on one physical line). -/
def noLF (l : Str) : Prop := containsChar l '\n' = false

instance (l : Str) : Decidable (noLF l) := by
  rw [noLF]; infer_instance

/-- A key that survives the flat round trip untouched: trimmed, free of the
delimiter and of newlines, and not starting with the comment marker. -/
def goodKey (k : Str) : Prop :=
  isTrimmed k ∧ containsChar k '=' = false ∧ noLF k ∧
  startsWithC k (strOf "#") = false

instance (k : Str) : Decidable (goodKey k) := by
  rw [goodKey]; infer_instance

/-- A value that survives the flat round trip untouched. -/
def goodVal (v : Str) : Prop :=
  isTrimmed v ∧ containsChar v '=' = false ∧ noLF v

instance (v : Str) : Decidable (goodVal v) := by
  rw [goodVal]; infer_instance

/-- A comment line as the reader itself stores it: trimmed, starting with
`#`, on one line. -/
def goodComment (c : Str) : Prop :=
  isTrimmed c ∧ startsWithC c (strOf "#") = true ∧ noLF c

instance (c : Str) : Decidable (goodComment c) := by
  rw [goodComment]; infer_instance

/-- Well-formedness of one flat entry. -/
def wfEntry : FlatEntry → Prop
  | FlatEntry.commentE c => goodComment c
  | FlatEntry.blankE => True
  | FlatEntry.pairE k v => goodKey k ∧ goodVal v

instance (e : FlatEntry) : Decidable (wfEntry e) := by
  cases e <;> (rw [wfEntry]; infer_instance)

/-- Well-formedness of a whole flat document: every entry well formed and
the keys pairwise distinct. -/
def wfEntries (es : List FlatEntry) : Prop :=
  (∀ e ∈ es, wfEntry e) ∧ ((entryPairs es).map Prod.fst).Nodup

instance (es : List FlatEntry) : Decidable (wfEntries es) := by
  rw [wfEntries]; infer_instance

/-- The line model that reading the saved document back produces: comments
and blanks reproduced, every ValueRef entry duplicated. -/
def expandFlat : List FlatEntry → List ConfigLine
  | [] => []
  | FlatEntry.commentE c :: es => ⟨ConfigType.comment, c⟩ :: expandFlat es
  | FlatEntry.blankE :: es => ⟨ConfigType.emptyLine, []⟩ :: expandFlat es
  | FlatEntry.pairE k _ :: es =>
      ⟨ConfigType.value, k⟩ :: ⟨ConfigType.value, k⟩ :: expandFlat es

/-- The text line that the writer emits for one flat entry of a well-formed
document. -/
def emitE : FlatEntry → List Str
  | FlatEntry.commentE c => [c]
  | FlatEntry.blankE => [[]]
  | FlatEntry.pairE k v => [k ++ strOf " = " ++ v]

/-- Indices of the comment lines of a flat document's line model. -/
def commentPositions (p : IniParser) : List Nat :=
  (p.lines.enum.filter (fun e => e.2.type = ConfigType.comment)).map Prod.fst

/-- Indices of the blank lines of a flat document's line model. -/
def blankPositions (p : IniParser) : List Nat :=
  (p.lines.enum.filter (fun e => e.2.type = ConfigType.emptyLine)).map Prod.fst

/-- Claim C1's round trip: `save` to a path, then `load` from it. -/
def saveLoad (p : IniParser) (q : Str) (fs : FileSys) : IniParser :=
  let r := p.save q fs
  r.1.load q r.2

/-- Claim C1 exactly as stated: after save-then-load the document has the
same set of keys with equal string-form values and the same comment and
blank line positions. -/
def claimC1 (p : IniParser) (q : Str) (fs : FileSys) : Prop :=
  (∀ k, mapContains (saveLoad p q fs).sec.dict k = mapContains p.sec.dict k) ∧
  (∀ k, mapContains p.sec.dict k = true →
     mapLookup (saveLoad p q fs).sec.dict k = mapLookup p.sec.dict k) ∧
  commentPositions (saveLoad p q fs) = commentPositions p ∧
  blankPositions (saveLoad p q fs) = blankPositions p

/-- The one-pair document refuting claim C1. -/
def c1CexDoc : IniParser := mkFlat [FlatEntry.pairE (strOf "k") (strOf "v")]

/-! ### The typed-coercion model for claim C9 (the decidable fragment:
int, bool, char, string; `float`/`double` coercion is IEEE-754 floating
point and is not modelled) -/

/-- One decimal digit as a character. -/
def digitToChar : Nat → Char
  | 0 => '0' | 1 => '1' | 2 => '2' | 3 => '3' | 4 => '4'
  | 5 => '5' | 6 => '6' | 7 => '7' | 8 => '8' | _ => '9'

/-- Modelled from the spec: `strutil::to_string` (strutil.h, code of the
repository not under src/) formats integers by locale-independent decimal
formatting; this is the standard decimal representation of a natural
number. -/
def natToStr (n : Nat) : Str :=
  if n = 0 then ['0'] else ((Nat.digits 10 n).map digitToChar).reverse

/-- `ConfigValue::setData` for `int` (`data = to_string(value)`). -/
def setDataInt (v : Int) : Str :=
  if v < 0 then '-' :: natToStr v.natAbs else natToStr v.toNat

/-- `ConfigValue::setData` for `bool` (`"true"` / `"false"`). -/
def setDataBool (b : Bool) : Str :=
  if b then strOf "true" else strOf "false"

/-- `ConfigValue::setData` for `char`: the one-character string. -/
def setDataChar (c : Char) : Str := [c]

/-- `ConfigValue::setData` for `std::string`: the text verbatim. -/
def setDataString (s : Str) : Str := s

/-- Decimal-digit test used by the integer parser. -/
def isDigitC (c : Char) : Bool := decide ('0' ≤ c) && decide (c ≤ '9')

/-- The maximal leading run of decimal digits, as a number; `none` when
there is no digit (`std::stoi` then throws `std::invalid_argument`). -/
def parseNat (s : Str) : Option Nat :=
  let ds := s.takeWhile isDigitC
  if ds = [] then none
  else some (ds.foldl (fun a c => a * 10 + (c.toNat - 48)) 0)

/-- `std::stoi`: skip leading whitespace, one optional sign, a nonempty
digit run (further characters ignored); values outside the 32-bit int range
make it throw `std::out_of_range` (modelled as `none`, both exceptions being
rethrown as the TypeConversionError of the spec). -/
def stoi (s : Str) : Option Int :=
  let s1 := s.dropWhile isSpaceC
  let core : Option Int :=
    if s1.head? = some '-' then
      (parseNat (s1.drop 1)).map (fun n => -(Int.ofNat n))
    else if s1.head? = some '+' then
      (parseNat (s1.drop 1)).map (fun n => Int.ofNat n)
    else (parseNat s1).map (fun n => Int.ofNat n)
  core.bind (fun v => if -(2 ^ 31) ≤ v ∧ v < 2 ^ 31 then some v else none)

/-- `ConfigValue::convertString<int>`. -/
def convertStringInt (s : Str) : Option Int := stoi s

/-- `ConfigValue::convertString<bool>`: only the literals `"true"` and
`"false"` convert. -/
def convertStringBool (s : Str) : Option Bool :=
  if s = strOf "true" then some true
  else if s = strOf "false" then some false
  else none

/-- `ConfigValue::convertString<char>`: exactly one character required. -/
def convertStringChar (s : Str) : Option Char :=
  match s with
  | [c] => some c
  | _ => none

/-- `ConfigValue::convertString<std::string>`: the `typeid`-name check
always passes for `std::string`, so the text is returned verbatim. -/
def convertStringString (s : Str) : Option Str := some s

/-- The concrete section `{a ↦ "1", b ↦ "2"}` used to settle claim C4. -/
def c4Section : ConfigSection :=
  (({} : ConfigSection).insert (strOf "a") (strOf "1")).insert (strOf "b") (strOf "2")

/-- A document carrying a stale `FILE_NOT_FOUND` error code and bound to the
path `"f"`, used to settle claim C3. -/
def c3State : IniParser :=
  { path := strOf "f", errorCode := ConfigError.FILE_NOT_FOUND }

example : trimS (strOf "  a b\t ") = strOf "a b" := by decide
example : startsWithC (strOf "#x") (strOf "#") = true := by decide
example : containsChar (strOf "a=b") '=' = true := by decide
example : splitNL (strOf "a\nb\n") = [strOf "a", strOf "b", []] := by decide
example : extractValue (strOf " k  =  v ") = [strOf "k", strOf "v"] := by decide

/-! ## Theorems settling the claims -/

/-! ### Shared lemmas about the association-list maps -/

theorem mapContains_iff_lookup (m : ValueMap) (k : Str) :
    mapContains m k = true ↔ (mapLookup m k).isSome = true := by
  induction m with
  | nil => simp [mapContains, mapLookup]
  | cons e m ih =>
      by_cases h : e.1 = k
      · simp [mapContains, mapLookup, h]
      · rw [show mapContains (e :: m) k = mapContains m k by simp [mapContains, h],
            show mapLookup (e :: m) k = mapLookup m k by simp [mapLookup, h]]
        exact ih

theorem mapLookup_eq_none (m : ValueMap) (k : Str)
    (h : mapContains m k = false) : mapLookup m k = none := by
  cases hl : mapLookup m k with
  | none => rfl
  | some v =>
      exact absurd ((mapContains_iff_lookup m k).2 (by simp [hl])) (by simp [h])

theorem mapLookup_append (m m' : ValueMap) (k : Str) :
    mapLookup (m ++ m') k =
      match mapLookup m k with
      | some v => some v
      | none => mapLookup m' k := by
  induction m with
  | nil => simp [mapLookup]
  | cons e m ih =>
      by_cases h : e.1 = k
      · simp [mapLookup, h]
      · simp [mapLookup, h, ih]

/-! ### Error-code plumbing: parsing itself never touches the error code -/

theorem insert_errorCode (p : IniParser) (k : Str) (v : ConfigValue) :
    (p.insert k v).errorCode = p.errorCode := by
  rw [IniParser.insert]; split <;> rfl

theorem readLine_errorCode (p : IniParser) (ln : Str) :
    (IniParser.readLine p ln).errorCode = p.errorCode := by
  rw [IniParser.readLine]
  split
  · rfl
  split
  · rfl
  split
  · split
    · rw [insert_errorCode]
    · rfl
  · rfl

theorem foldl_readLine_errorCode (ls : List Str) (p : IniParser) :
    (ls.foldl IniParser.readLine p).errorCode = p.errorCode := by
  induction ls generalizing p with
  | nil => rfl
  | cons ln ls ih => rw [List.foldl_cons, ih, readLine_errorCode]

theorem addSection_errorCode (p : CfgParser) (n : Str) :
    (p.addSection n).errorCode = p.errorCode := by
  rw [CfgParser.addSection]; split <;> rfl

theorem readStep_errorCode (a : CfgParser × Option Str) (ln : Str) :
    (CfgParser.readStep a ln).1.errorCode = a.1.errorCode := by
  obtain ⟨p, mode⟩ := a
  cases mode with
  | some name =>
      rw [CfgParser.readStep]
      split
      · rfl
      split
      · split
        · rfl
        · rfl
      · rfl
  | none =>
      rw [CfgParser.readStep]
      split
      · rfl
      split
      · rfl
      split
      · exact addSection_errorCode _ _
      · rfl

theorem foldl_readStep_errorCode (ls : List Str) (a : CfgParser × Option Str) :
    ((ls.foldl CfgParser.readStep a).1).errorCode = a.1.errorCode := by
  induction ls generalizing a with
  | nil => rfl
  | cons ln ls ih => rw [List.foldl_cons, ih, readStep_errorCode]

/-- C3 counterexample: a document with a stale `FILE_NOT_FOUND` error code
bound to path `"f"`; `reload()` over a file system in which `"f"` exists and
parses cleanly leaves the error code at `FILE_NOT_FOUND`, not `NO_ERROR` —
so the error code is not reset at the start of every reload as claimed
(`Parser::reload` calls `erase()` and `readFile()` but not `flush()`). -/
theorem C3_counterexample :
    (c3State.reload [(strOf "f", strOf "x = 1\n")]).getError
        = ConfigError.FILE_NOT_FOUND ∧
    (c3State.reload [(strOf "f", strOf "x = 1\n")]).getError
        ≠ ConfigError.NO_ERROR := by
  refine ⟨by decide, by decide⟩

/-- C3 amended: the error code is reset to NoError at the start of every
`load` (so the loaded result is independent of the prior error code, and the
inspectable `getError()` afterwards reflects only the parse outcome), but
`reload` performs no such reset: it leaves the prior error code in place
unless the bound file is now missing.  Stated for both document kinds. -/
theorem C3_amended (pi : IniParser) (pc : CfgParser) (q : Str) (fs : FileSys)
    (e : ConfigError) :
    (IniParser.load { pi with errorCode := e } q fs = pi.load q fs ∧
     CfgParser.load { pc with errorCode := e } q fs = pc.load q fs) ∧
    ((pi.load q fs).getError =
       if q ≠ [] ∧ fsLookup fs q = none then ConfigError.FILE_NOT_FOUND
       else ConfigError.NO_ERROR) ∧
    ((pc.load q fs).getError =
       if q ≠ [] ∧ fsLookup fs q = none then ConfigError.FILE_NOT_FOUND
       else ConfigError.NO_ERROR) ∧
    ((pi.reload fs).getError =
       if pi.path ≠ [] ∧ fsLookup fs pi.path = none then ConfigError.FILE_NOT_FOUND
       else pi.getError) ∧
    ((pc.reload fs).getError =
       if pc.path ≠ [] ∧ fsLookup fs pc.path = none then ConfigError.FILE_NOT_FOUND
       else pc.getError) := by
  refine ⟨⟨rfl, rfl⟩, ?_, ?_, ?_, ?_⟩
  · rw [IniParser.load, IniParser.readFile]
    by_cases hq : q = []
    · simp [hq, IniParser.flush, IniParser.clear, IniParser.getError]
    · simp only [hq, if_neg]
      rw [IniParser.read]
      cases hlk : fsLookup fs ({ pi.flush.clear with path := q } : IniParser).path with
      | some content =>
          have hlk2 : fsLookup fs q = some content := hlk
          simp [IniParser.getError, foldl_readLine_errorCode, hq, hlk2,
                IniParser.flush, IniParser.clear]
      | none =>
          have hlk2 : fsLookup fs q = none := hlk
          simp [IniParser.getError, hq, hlk2]
  · rw [CfgParser.load, CfgParser.readFile]
    by_cases hq : q = []
    · simp [hq, CfgParser.flush, CfgParser.clear, CfgParser.getError]
    · simp only [hq, if_neg]
      rw [CfgParser.read]
      cases hlk : fsLookup fs ({ pc.flush.clear with path := q } : CfgParser).path with
      | some content =>
          have hlk2 : fsLookup fs q = some content := hlk
          simp [CfgParser.getError, foldl_readStep_errorCode, hq, hlk2,
                CfgParser.flush, CfgParser.clear]
      | none =>
          have hlk2 : fsLookup fs q = none := hlk
          simp [CfgParser.getError, hq, hlk2]
  · rw [IniParser.reload, IniParser.readFile]
    by_cases hq : pi.path = []
    · simp [hq, IniParser.clear, IniParser.getError]
    · have hq2 : (pi.clear).path = pi.path := rfl
      simp only [hq2, hq, if_neg]
      rw [IniParser.read]
      cases hlk : fsLookup fs (pi.clear).path with
      | some content =>
          have hlk2 : fsLookup fs pi.path = some content := hlk
          simp [IniParser.getError, foldl_readLine_errorCode, hq, hlk2,
                IniParser.clear]
      | none =>
          have hlk2 : fsLookup fs pi.path = none := hlk
          simp [IniParser.getError, hq, hlk2, IniParser.clear]
  · rw [CfgParser.reload, CfgParser.readFile]
    by_cases hq : pc.path = []
    · simp [hq, CfgParser.clear, CfgParser.getError]
    · have hq2 : (pc.clear).path = pc.path := rfl
      simp only [hq2, hq, if_neg]
      rw [CfgParser.read]
      cases hlk : fsLookup fs (pc.clear).path with
      | some content =>
          have hlk2 : fsLookup fs pc.path = some content := hlk
          simp [CfgParser.getError, foldl_readStep_errorCode, hq, hlk2,
                CfgParser.clear]
      | none =>
          have hlk2 : fsLookup fs pc.path = none := hlk
          simp [CfgParser.getError, hq, hlk2, CfgParser.clear]

/-! ### Lemmas about trimming and the first-equals split -/

theorem mem_dropWhile_of_mem {c : Char} {l : Str} (h : c ∈ l)
    (hc : isSpaceC c = false) : c ∈ l.dropWhile isSpaceC := by
  induction l with
  | nil => cases h
  | cons a l ih =>
      by_cases ha : isSpaceC a = true
      · rw [List.dropWhile_cons, if_pos ha]
        apply ih
        rcases List.mem_cons.1 h with h1 | h1
        · rw [h1] at hc; rw [hc] at ha; cases ha
        · exact h1
      · rw [List.dropWhile_cons, if_neg ha]
        exact h

theorem mem_trimS_of_mem {c : Char} {l : Str} (h : c ∈ l)
    (hc : isSpaceC c = false) : c ∈ trimS l := by
  rw [trimS]
  refine List.mem_reverse.2 (mem_dropWhile_of_mem (List.mem_reverse.2 ?_) hc)
  exact mem_dropWhile_of_mem h hc

theorem containsChar_iff_mem {l : Str} {c : Char} :
    containsChar l c = true ↔ c ∈ l := by
  induction l with
  | nil => simp [containsChar]
  | cons a l ih =>
      by_cases h : a = c
      · subst h; simp [containsChar]
      · rw [show containsChar (a :: l) c = containsChar l c by simp [containsChar, h]]
        constructor
        · intro hm
          exact List.mem_cons_of_mem _ (ih.1 hm)
        · intro hm
          rcases List.mem_cons.1 hm with h1 | h1
          · exact absurd h1.symm h
          · exact ih.2 h1

theorem splitFirstEq_of_contains {l : Str} (h : containsChar l '=' = true) :
    ∃ a b, splitFirstEq l = some (a, b) := by
  induction l with
  | nil => simp [containsChar] at h
  | cons c cs ih =>
      by_cases hc : c = '='
      · exact ⟨[], cs, by simp [splitFirstEq, hc]⟩
      · have hcs : containsChar cs '=' = true := by
          rcases List.mem_cons.1 (containsChar_iff_mem.1 h) with h1 | h1
          · exact absurd h1.symm hc
          · exact containsChar_iff_mem.2 h1
        obtain ⟨a, b, hab⟩ := ih hcs
        exact ⟨c :: a, b, by simp [splitFirstEq, hc, hab]⟩

/-- If a line contains the delimiter, `extractValue` yields exactly a
two-element key/value list. -/
theorem extractValue_of_isValue {ln : Str} (h3 : isValue ln = true) :
    ∃ a b, splitFirstEq (trimS ln) = some (a, b) ∧
      extractValue ln = [trimS a, trimS b] := by
  have hm : containsChar (trimS ln) '=' = true := by
    refine containsChar_iff_mem.2 (mem_trimS_of_mem ?_ (by decide))
    exact containsChar_iff_mem.1 h3
  obtain ⟨a, b, hab⟩ := splitFirstEq_of_contains hm
  exact ⟨a, b, hab, by rw [extractValue]; simp only [hab]⟩

/-- C5 counterexample: reading the single value line `"a = 1"` into an empty
flat document appends two `ValueRef` line entries — one by the read loop and
a second by `insert`, which also appends — not exactly one as claimed. -/
theorem C5_counterexample :
    (IniParser.readLine {} (strOf "a = 1")).lines
        = [⟨ConfigType.value, strOf "a"⟩, ⟨ConfigType.value, strOf "a"⟩] ∧
    (IniParser.readLine {} (strOf "a = 1")).lines.length ≠ 1 ∧
    mapLookup (IniParser.readLine {} (strOf "a = 1")).sec.dict (strOf "a")
        = some (strOf "1") := by
  refine ⟨by decide, by decide, by decide⟩

/-- C5 amended: during a flat-dialect read, every non-comment, non-blank
input line containing `=` is split (per the spec's split semantics: on the
first `=`, both parts trimmed) into (key, value); the read loop appends one
`ValueRef(key)` line entry and then calls `insert`, which — when the key is
new — appends a second, identical `ValueRef(key)` entry and inserts
key → value into the dict; for an already-present key only the single
read-loop entry is appended and the first value silently wins. -/
theorem C5_amended (p : IniParser) (ln : Str)
    (h1 : isComment ln = false) (h2 : isEmptyLine ln = false)
    (h3 : isValue ln = true) :
    ∃ k v, extractValue ln = [k, v] ∧
      IniParser.readLine p ln =
        (if mapContains p.sec.dict k = true then
           { p with lines := appendLine p.lines ConfigType.value k }
         else
           { p with
               lines := appendLine (appendLine p.lines ConfigType.value k)
                          ConfigType.value k,
               sec := p.sec.insert k v }) := by
  obtain ⟨a, b, _, hev⟩ := extractValue_of_isValue h3
  refine ⟨trimS a, trimS b, hev, ?_⟩
  rw [IniParser.readLine]
  simp only [h1, h2, h3, Bool.false_eq_true, if_false, if_true, hev]
  by_cases hc : mapContains p.sec.dict (trimS a) = true <;>
    simp [IniParser.insert, hc, appendLine]

/-- Witness for C5 at the empty flat document and the line `"b = 2"`. -/
theorem C5_amended_witness :
    isComment (strOf "b = 2") = false ∧
    isEmptyLine (strOf "b = 2") = false ∧
    isValue (strOf "b = 2") = true ∧
    (∃ k v, extractValue (strOf "b = 2") = [k, v] ∧
      IniParser.readLine {} (strOf "b = 2") =
        (if mapContains ({} : IniParser).sec.dict k = true then
           { ({} : IniParser) with
               lines := appendLine ({} : IniParser).lines ConfigType.value k }
         else
           { ({} : IniParser) with
               lines := appendLine
                          (appendLine ({} : IniParser).lines ConfigType.value k)
                          ConfigType.value k,
               sec := ({} : IniParser).sec.insert k v })) :=
  ⟨by decide, by decide, by decide,
   C5_amended {} (strOf "b = 2") (by decide) (by decide) (by decide)⟩

theorem smContains_iff_lookup (m : SectionMapL) (k : Str) :
    smContains m k = true ↔ (smLookup m k).isSome = true := by
  induction m with
  | nil => simp [smContains, smLookup]
  | cons e m ih =>
      by_cases h : e.1 = k
      · simp [smContains, smLookup, h]
      · rw [show smContains (e :: m) k = smContains m k by simp [smContains, h],
            show smLookup (e :: m) k = smLookup m k by simp [smLookup, h]]
        exact ih

theorem foldl_cfgWriteStep (secs : SectionMapL) (ls : List ConfigLine)
    (out : List Str)
    (h : ∀ l ∈ ls, l.type = ConfigType.sectionHeader →
           smContains secs l.content = true) :
    ls.foldl (cfgWriteStep secs) (some out)
      = some (out ++ ls.flatMap (cfgBlockOf secs)) := by
  induction ls generalizing out with
  | nil => simp
  | cons l ls ih =>
      have hstep : cfgWriteStep secs (some out) l = some (out ++ cfgBlockOf secs l) := by
        rw [cfgWriteStep, cfgBlockOf, Option.bind]
        cases hty : l.type with
        | emptyLine => rfl
        | comment => rfl
        | value => simp
        | sectionHeader =>
            have hc := h l (List.mem_cons_self l ls) hty
            obtain ⟨s, hs⟩ := Option.isSome_iff_exists.1 ((smContains_iff_lookup _ _).1 hc)
            simp [hs]
      rw [List.foldl_cons, hstep,
          ih (out ++ cfgBlockOf secs l)
            (fun l2 hl ht => h l2 (List.mem_cons_of_mem _ hl) ht),
          List.flatMap_cons, List.append_assoc]

/-- C6 counterexample: for the one-section document `[A]` with pair `k = v`,
the writer emits the header, the body line, and then TWO blank separator
lines (`file << "\n" << std::endl` produces two newlines), not exactly one
as claimed. -/
theorem C6_counterexample :
    CfgParser.writeEmit c6Doc
        = some [strOf "[A]", strOf "k = v", [], []] ∧
    CfgParser.writeEmit c6Doc
        ≠ some [strOf "[A]", strOf "k = v", []] := by
  refine ⟨by decide, by decide⟩

/-- C6 amended: during a sectioned-dialect write (of a document whose
section-header entries all name existing sections, otherwise the write
throws), each line entry contributes its block in order: a SectionHeader
entry is emitted as `"[{name}]"` followed by one `"{key} = {value}"` line
for every key of that section in its current live iteration order, followed
by exactly TWO blank separator lines after the section body. -/
theorem C6_amended (p : CfgParser)
    (h : ∀ l ∈ p.lines, l.type = ConfigType.sectionHeader →
           smContains p.sections l.content = true) :
    CfgParser.writeEmit p = some (p.lines.flatMap (cfgBlockOf p.sections)) ∧
    (∀ l ∈ p.lines, ∀ s, l.type = ConfigType.sectionHeader →
        smLookup p.sections l.content = some s →
        cfgBlockOf p.sections l
          = [('[' :: l.content) ++ [']']]
              ++ s.keys.map (fun k => k ++ strOf " = " ++ (s.subscript k).1)
              ++ [[], []]) := by
  refine ⟨?_, ?_⟩
  · rw [CfgParser.writeEmit]
    rw [foldl_cfgWriteStep p.sections p.lines [] h]
    rfl
  · intro l _ s hty hs
    rw [cfgBlockOf, hty, hs]

/-- Witness for C6 at the one-section document `c6Doc`. -/
theorem C6_amended_witness :
    (∀ l ∈ c6Doc.lines, l.type = ConfigType.sectionHeader →
        smContains c6Doc.sections l.content = true) ∧
    CfgParser.writeEmit c6Doc
      = some (c6Doc.lines.flatMap (cfgBlockOf c6Doc.sections)) :=
  ⟨by decide, (C6_amended c6Doc (by decide)).1⟩

/-! ### Lemmas for the order/mapping invariant (claim C7) -/

theorem mapContains_exists {m : ValueMap} {k : Str} :
    mapContains m k = true ↔ ∃ e ∈ m, e.1 = k := by
  simp [mapContains]

theorem mapContains_append (m1 m2 : ValueMap) (k : Str) :
    mapContains (m1 ++ m2) k = (mapContains m1 k || mapContains m2 k) := by
  simp [mapContains, List.any_append]

theorem contains_erase_iff {m : ValueMap} {k k' : Str} :
    mapContains (mapErase m k) k' = true ↔
      (mapContains m k' = true ∧ k' ≠ k) := by
  simp only [mapErase, mapContains_exists]
  constructor
  · rintro ⟨e, he, rfl⟩
    rw [List.mem_filter] at he
    refine ⟨⟨e, he.1, rfl⟩, ?_⟩
    intro hkk
    rw [hkk] at he
    simpa using he.2
  · rintro ⟨⟨e, he, rfl⟩, hne⟩
    exact ⟨e, List.mem_filter.2 ⟨he, by simpa using hne⟩, rfl⟩

theorem mem_assign {m : ValueMap} {k : Str} {v : ConfigValue} {e : Str × ConfigValue}
    (h : e ∈ mapAssign m k v) : e.1 = k ∨ e ∈ m := by
  rw [mapAssign] at h
  split at h
  · rcases List.mem_map.1 h with ⟨e', he', heq⟩
    by_cases hk : e'.1 = k
    · rw [if_pos hk] at heq; left; rw [← heq]
    · rw [if_neg hk] at heq; right; rw [← heq]; exact he'
  · rcases List.mem_append.1 h with h1 | h1
    · right; exact h1
    · left; rw [List.mem_singleton.1 h1]

theorem mapContains_cons (e : Str × ConfigValue) (m : ValueMap) (k : Str) :
    mapContains (e :: m) k = (decide (e.1 = k) || mapContains m k) := by
  simp [mapContains]

theorem mapContains_mapAssignFun (m : ValueMap) (k : Str) (v : ConfigValue)
    (k' : Str) :
    mapContains (m.map (fun e => if e.1 = k then (k, v) else e)) k'
      = mapContains m k' := by
  induction m with
  | nil => rfl
  | cons e m ih =>
      by_cases hk : e.1 = k
      · rw [List.map_cons, if_pos hk, mapContains_cons, mapContains_cons, ih, hk]
      · rw [List.map_cons, if_neg hk, mapContains_cons, mapContains_cons, ih]

theorem contains_assign_iff {m : ValueMap} {k k' : Str} {v : ConfigValue} :
    mapContains (mapAssign m k v) k' = true ↔
      (mapContains m k' = true ∨ k' = k) := by
  rw [mapAssign]
  split
  case isTrue hc =>
    rw [mapContains_mapAssignFun]
    constructor
    · exact fun h => Or.inl h
    · rintro (h | rfl)
      · exact h
      · exact hc
  case isFalse hc =>
    rw [mapContains_append]
    constructor
    · intro h
      rcases Bool.or_eq_true_iff.1 h with h1 | h1
      · exact Or.inl h1
      · right
        rcases mapContains_exists.1 h1 with ⟨e, he, rfl⟩
        rw [List.mem_singleton.1 he]
    · rintro (h | rfl)
      · rw [h]; rfl
      · simp [mapContains]

theorem removeElement_subset (l : List Str) (v : Str) :
    ∀ x ∈ removeElement l v, x ∈ l := by
  induction l with
  | nil => intro x hx; cases hx
  | cons a l ih =>
      intro x hx
      rw [removeElement] at hx
      split at hx
      · exact List.mem_cons_of_mem _ hx
      · rcases List.mem_cons.1 hx with h1 | h1
        · rw [h1]; exact List.mem_cons_self _ _
        · exact List.mem_cons_of_mem _ (ih x h1)

theorem mem_removeElement_of_ne {l : List Str} {v k' : Str} (h : k' ≠ v) :
    k' ∈ removeElement l v ↔ k' ∈ l := by
  induction l with
  | nil => simp [removeElement]
  | cons a l ih =>
      rw [removeElement]
      split
      case isTrue ha =>
        rw [ha]
        constructor
        · exact fun hm => List.mem_cons_of_mem _ hm
        · intro hm
          rcases List.mem_cons.1 hm with h1 | h1
          · exact absurd h1 h
          · exact h1
      case isFalse ha =>
        rw [List.mem_cons, List.mem_cons, ih]

theorem removeElement_nodup {l : List Str} (h : l.Nodup) (v : Str) :
    (removeElement l v).Nodup := by
  induction l with
  | nil => exact h
  | cons a l ih =>
      rw [removeElement]
      rcases List.nodup_cons.1 h with ⟨ha, hl⟩
      split
      · exact hl
      · exact List.nodup_cons.2
          ⟨fun hm => ha (removeElement_subset l v a hm), ih hl⟩

theorem not_mem_removeElement_self {l : List Str} (h : l.Nodup) (v : Str) :
    v ∉ removeElement l v := by
  induction l with
  | nil => simp [removeElement]
  | cons a l ih =>
      rw [removeElement]
      rcases List.nodup_cons.1 h with ⟨ha, hl⟩
      split
      case isTrue hav => rw [← hav]; exact ha
      case isFalse hav =>
        intro hm
        rcases List.mem_cons.1 hm with h1 | h1
        · exact hav h1.symm
        · exact ih hl h1

theorem removeLine_subset (ls : List ConfigLine) (k : Str) :
    ∀ l ∈ removeLine ls k, l ∈ ls := by
  induction ls with
  | nil => intro l hl; cases hl
  | cons a ls ih =>
      intro l hl
      rw [removeLine] at hl
      split at hl
      · exact List.mem_cons_of_mem _ hl
      · rcases List.mem_cons.1 hl with h1 | h1
        · rw [h1]; exact List.mem_cons_self _ _
        · exact List.mem_cons_of_mem _ (ih l h1)

theorem lineCount_cons (a : ConfigLine) (ls : List ConfigLine) (k : Str) :
    lineCount (a :: ls) k = lineCount ls k + (if a.content = k then 1 else 0) := by
  simp [lineCount, List.countP_cons]

theorem lineCount_removeLine_self (ls : List ConfigLine) (k : Str) :
    lineCount (removeLine ls k) k = lineCount ls k - 1 := by
  induction ls with
  | nil => rfl
  | cons a ls ih =>
      rw [removeLine]
      split
      case isTrue ha =>
        rw [lineCount_cons]
        simp [ha]
      case isFalse ha =>
        rw [lineCount_cons, ih, lineCount_cons]
        simp only [ha, if_false]
        omega

theorem lineCount_removeLine_ne (ls : List ConfigLine) {k k' : Str} (h : k' ≠ k) :
    lineCount (removeLine ls k) k' = lineCount ls k' := by
  induction ls with
  | nil => rfl
  | cons a ls ih =>
      rw [removeLine]
      split
      case isTrue ha =>
        rw [lineCount_cons]
        have hne : ¬(a.content = k') := by rw [ha]; exact fun hh => h hh.symm
        simp [hne]
      case isFalse ha =>
        rw [lineCount_cons, ih, lineCount_cons]

theorem lineCount_append (ls1 ls2 : List ConfigLine) (k : Str) :
    lineCount (ls1 ++ ls2) k = lineCount ls1 k + lineCount ls2 k := by
  rw [lineCount, lineCount, lineCount, List.countP_append]

theorem mapGetDefault_of_contains {m : ValueMap} {k : Str}
    (h : mapContains m k = true) :
    mapGetDefault m k = ((mapLookup m k).getD [], m) := by
  rw [mapGetDefault]
  rcases Option.isSome_iff_exists.1 ((mapContains_iff_lookup m k).1 h) with ⟨v, hv⟩
  rw [hv]
  rfl

theorem foldl_iniWriteStep (m : ValueMap) (ls : List ConfigLine) (out : List Str)
    (h : ∀ l ∈ ls, l.type = ConfigType.value → mapContains m l.content = true) :
    ls.foldl iniWriteStep (out, m) = (out ++ ls.flatMap (iniEmitLine m), m) := by
  induction ls generalizing out with
  | nil => simp
  | cons l ls ih =>
      have hstep : iniWriteStep (out, m) l = (out ++ iniEmitLine m l, m) := by
        rw [iniWriteStep, iniEmitLine]
        cases hty : l.type with
        | emptyLine => rfl
        | comment => rfl
        | sectionHeader => simp
        | value =>
            rw [mapGetDefault_of_contains (h l (List.mem_cons_self l ls) hty)]
      rw [List.foldl_cons, hstep,
          ih (out ++ iniEmitLine m l)
            (fun l2 hl ht => h l2 (List.mem_cons_of_mem _ hl) ht),
          List.flatMap_cons, List.append_assoc]

theorem secInv_create (s : ConfigSection) (k : Str) (v : ConfigValue)
    (h : secInv s) (hk : mapContains s.dict k = false) :
    secInv ⟨mapEmplace s.dict k v, s.keys ++ [k]⟩ := by
  obtain ⟨hnd, hkm, hmk⟩ := h
  have hknotin : k ∉ s.keys := fun hmem => by
    rw [hkm k hmem] at hk; cases hk
  have hemp : mapEmplace s.dict k v = s.dict ++ [(k, v)] := by
    rw [mapEmplace, if_neg (by simp [hk])]
  refine ⟨?_, ?_, ?_⟩
  · rw [List.nodup_append]
    exact ⟨hnd, List.nodup_singleton _, fun a ha hb => by
      rw [List.mem_singleton.1 hb] at ha; exact hknotin ha⟩
  · intro k' hk'
    rw [hemp, mapContains_append]
    rcases List.mem_append.1 hk' with h1 | h1
    · rw [hkm k' h1]; rfl
    · rw [List.mem_singleton.1 h1]
      simp [mapContains]
  · intro e he
    rw [hemp] at he
    rcases List.mem_append.1 he with h1 | h1
    · exact List.mem_append.2 (Or.inl (hmk e h1))
    · rw [List.mem_singleton.1 h1]
      exact List.mem_append.2 (Or.inr (List.mem_singleton.2 rfl))

theorem iniWF_create (p : IniParser) (k : Str) (v : ConfigValue)
    (h : iniWF p) (hk : mapContains p.sec.dict k = false) :
    iniWF { p with
      lines := appendLine p.lines ConfigType.value k,
      sec := ⟨mapEmplace p.sec.dict k v, p.sec.keys ++ [k]⟩ } := by
  obtain ⟨hsec, hlk, hcnt⟩ := h
  have hknotin : k ∉ p.sec.keys := fun hmem => by
    rw [hsec.2.1 k hmem] at hk; cases hk
  have happ : appendLine p.lines ConfigType.value k
      = p.lines ++ [⟨ConfigType.value, k⟩] := rfl
  refine ⟨secInv_create p.sec k v hsec hk, ?_, ?_⟩
  · intro l hl
    rw [happ] at hl
    rcases List.mem_append.1 hl with h1 | h1
    · exact List.mem_append.2 (Or.inl (hlk l h1))
    · rw [List.mem_singleton.1 h1]
      exact List.mem_append.2 (Or.inr (List.mem_singleton.2 rfl))
  · intro k' hk'
    rw [happ, lineCount_append]
    rcases List.mem_append.1 hk' with h1 | h1
    · have hne : ¬((⟨ConfigType.value, k⟩ : ConfigLine).content = k') := by
        intro he
        exact hknotin (by rw [show k = k' from he]; exact h1)
      rw [hcnt k' h1, lineCount, List.countP_cons]
      simp [hne]
  -- the new key k: no old line mentions it, the appended one does
    · rw [List.mem_singleton.1 h1]
      have h0 : lineCount p.lines k = 0 := by
        rw [lineCount, List.countP_eq_zero]
        intro a ha
        simp only [decide_eq_true_eq]
        intro hc
        exact hknotin (hc ▸ hlk a ha)
      rw [h0, lineCount, List.countP_cons]
      simp

theorem iniWF_delete (p : IniParser) (k : Str)
    (h : iniWF p) (hk : mapContains p.sec.dict k = true) :
    iniWF { p with
      lines := removeLine p.lines k,
      sec := ⟨mapErase p.sec.dict k, removeElement p.sec.keys k⟩ } := by
  obtain ⟨⟨hnd, hkm, hmk⟩, hlk, hcnt⟩ := h
  have hkin : k ∈ p.sec.keys := by
    rcases mapContains_exists.1 hk with ⟨e, he, rfl⟩
    exact hmk e he
  refine ⟨⟨removeElement_nodup hnd k, ?_, ?_⟩, ?_, ?_⟩
  · intro k' hk'
    have hne : k' ≠ k := fun he => not_mem_removeElement_self hnd k (he ▸ hk')
    exact contains_erase_iff.2 ⟨hkm k' (removeElement_subset _ _ _ hk'), hne⟩
  · intro e he
    rw [mapErase] at he
    rw [List.mem_filter] at he
    have hne : e.1 ≠ k := by simpa using he.2
    exact (mem_removeElement_of_ne hne).2 (hmk e he.1)
  · intro l hl
    have hin : l ∈ p.lines := removeLine_subset _ _ _ hl
    by_cases hc : l.content = k
    · exfalso
      have h1 : lineCount (removeLine p.lines k) k = 0 := by
        rw [lineCount_removeLine_self, hcnt k hkin]
      have h2 : 0 < lineCount (removeLine p.lines k) k := by
        rw [lineCount, List.countP_pos_iff]
        exact ⟨l, hl, by simp [hc]⟩
      omega
    · exact (mem_removeElement_of_ne hc).2 (hlk l hin)
  · intro k' hk'
    have hne : k' ≠ k := fun he => not_mem_removeElement_self hnd k (he ▸ hk')
    rw [lineCount_removeLine_ne _ hne]
    exact hcnt k' (removeElement_subset _ _ _ hk')

theorem iniWF_assign (p : IniParser) (k : Str) (v : ConfigValue)
    (h : iniWF p) (hk : mapContains p.sec.dict k = true) :
    iniWF { p with sec := { p.sec with dict := mapAssign p.sec.dict k v } } := by
  obtain ⟨⟨hnd, hkm, hmk⟩, hlk, hcnt⟩ := h
  have hkin : k ∈ p.sec.keys := by
    rcases mapContains_exists.1 hk with ⟨e, he, rfl⟩
    exact hmk e he
  refine ⟨⟨hnd, ?_, ?_⟩, hlk, hcnt⟩
  · intro k' hk'
    exact contains_assign_iff.2 (Or.inl (hkm k' hk'))
  · intro e he
    rcases mem_assign he with h1 | h1
    · rw [h1]; exact hkin
    · exact hmk e h1

theorem subscript_state (p : IniParser) (k : Str) :
    (p.subscript k).2 =
      if mapContains p.sec.dict k = true then p
      else { p with
        lines := appendLine p.lines ConfigType.value k,
        sec := ⟨mapEmplace p.sec.dict k [], p.sec.keys ++ [k]⟩ } := by
  rw [IniParser.subscript, ConfigSection.subscript]
  by_cases hc : mapContains p.sec.dict k = true <;> simp [hc]

theorem subscript_contains (p : IniParser) (k : Str) :
    mapContains ((p.subscript k).2).sec.dict k = true := by
  rw [subscript_state]
  by_cases hc : mapContains p.sec.dict k = true
  · rw [if_pos hc]; exact hc
  · rw [if_neg hc]
    show mapContains (mapEmplace p.sec.dict k []) k = true
    rw [mapEmplace, if_neg hc, mapContains_append]
    simp [mapContains]

theorem iniWF_subscript (p : IniParser) (k : Str) (h : iniWF p) :
    iniWF (p.subscript k).2 := by
  rw [subscript_state]
  by_cases hc : mapContains p.sec.dict k = true
  · rw [if_pos hc]; exact h
  · rw [if_neg hc]
    exact iniWF_create p k [] h (by simpa using hc)

theorem iniWF_clear (p : IniParser) : iniWF p.clear := by
  refine ⟨⟨List.nodup_nil, ?_, ?_⟩, ?_, ?_⟩ <;> intro x hx <;> cases hx

theorem writeEmit_of_WF (p : IniParser) (h : iniWF p) :
    p.writeEmit = (p.lines.flatMap (iniEmitLine p.sec.dict), p.sec.dict) := by
  rw [IniParser.writeEmit]
  exact foldl_iniWriteStep p.sec.dict p.lines []
    (fun l hl _ => h.1.2.1 l.content (h.2.1 l hl))

theorem iniWF_write (p : IniParser) (fs : FileSys) (h : iniWF p) :
    iniWF (p.write fs).1 := by
  rw [IniParser.write]
  by_cases hp : p.path = []
  · rw [if_pos hp]; exact h
  · rw [if_neg hp]
    show iniWF { p with sec := { p.sec with dict := (p.writeEmit).2 } }
    rw [writeEmit_of_WF p h]
    exact h

/-- Every public operation of the C7 alphabet preserves the strong flat
document invariant (and with it the key-order/mapping membership property). -/
theorem applyIniOp_WF (p : IniParser) (op : IniOp) (h : iniWF p) :
    iniWF (applyIniOp p op) := by
  cases op with
  | insertOp k v =>
      rw [applyIniOp, IniParser.insert]
      split
      case isTrue hc => exact h
      case isFalse hc =>
        rw [ConfigSection.insert, if_neg hc]
        exact iniWF_create p k v h (by simpa using hc)
  | updateOp k v =>
      rw [applyIniOp, IniParser.update, ConfigSection.update]
      split
      case isTrue hc => exact iniWF_assign p k v h hc
      case isFalse hc => exact h
  | subscriptRead k =>
      rw [applyIniOp]
      exact iniWF_subscript p k h
  | subscriptAssignOp k v =>
      rw [applyIniOp, IniParser.subscriptAssign]
      exact iniWF_assign (p.subscript k).2 k v (iniWF_subscript p k h)
        (subscript_contains p k)
  | getOp k =>
      exact h
  | popOp k =>
      rw [applyIniOp, IniParser.pop]
      by_cases hc : mapContains p.sec.dict k = true
      · rcases Option.isSome_iff_exists.1 ((mapContains_iff_lookup _ k).1 hc)
          with ⟨v, hv⟩
        simp only [hc, if_true, ConfigSection.pop, hv, Option.map_some,
          Option.getD_some]
        exact iniWF_delete p k h hc
      · have hv : mapLookup p.sec.dict k = none :=
          mapLookup_eq_none _ _ (by simpa using hc)
        simp only [hc, ConfigSection.pop, hv, Option.map_none, Option.getD_none,
          Bool.false_eq_true, if_false]
        exact h
  | removeOp k =>
      rw [applyIniOp, IniParser.remove]
      split
      case isTrue hc =>
        rw [ConfigSection.remove, if_pos hc]
        exact iniWF_delete p k h hc
      case isFalse hc => exact h
  | clearOp =>
      exact iniWF_clear p
  | saveOp q =>
      rw [applyIniOp, IniParser.save]
      split
      case isTrue hq => exact iniWF_write p [] h
      case isFalse hq =>
        refine iniWF_write { p with path := q } [] ?_
        exact h

/-- A whole sequence of public operations preserves the invariant. -/
theorem applyIniOps_WF (p : IniParser) (ops : List IniOp) (h : iniWF p) :
    iniWF (applyIniOps p ops) := by
  induction ops generalizing p with
  | nil => exact h
  | cons op ops ih =>
      rw [applyIniOps, List.foldl_cons]
      exact ih (applyIniOp p op) (applyIniOp_WF p op h)

theorem insert_sec (p : IniParser) (k : Str) (v : ConfigValue) :
    (p.insert k v).sec = p.sec.insert k v := by
  by_cases hc : mapContains p.sec.dict k = true <;>
    simp [IniParser.insert, ConfigSection.insert, hc]

theorem secInv_insert (s : ConfigSection) (k : Str) (v : ConfigValue)
    (h : secInv s) : secInv (s.insert k v) := by
  rw [ConfigSection.insert]
  split
  case isTrue => exact h
  case isFalse hc => exact secInv_create s k v h (by simpa using hc)

theorem readLine_secInv (p : IniParser) (ln : Str) (h : secInv p.sec) :
    secInv (IniParser.readLine p ln).sec := by
  rw [IniParser.readLine]
  split
  · exact h
  split
  · exact h
  split
  · split
    · rw [insert_sec]
      exact secInv_insert _ _ _ h
    · exact h
  · exact h

theorem foldl_readLine_secInv (ls : List Str) (p : IniParser) (h : secInv p.sec) :
    secInv ((ls.foldl IniParser.readLine p)).sec := by
  induction ls generalizing p with
  | nil => exact h
  | cons ln ls ih =>
      rw [List.foldl_cons]
      exact ih _ (readLine_secInv p ln h)

theorem secInv_empty : secInv ({} : ConfigSection) := by
  refine ⟨List.nodup_nil, ?_, ?_⟩ <;> intro x hx <;> cases hx

theorem load_secInv (p : IniParser) (q : Str) (fs : FileSys) :
    secInv ((p.load q fs).sec) := by
  rw [IniParser.load, IniParser.readFile]
  split
  · exact secInv_empty
  · rw [IniParser.read]
    split
    · exact foldl_readLine_secInv _ _ secInv_empty
    · exact secInv_empty

/-- C7 counterexample: the sequence load("f"); pop("k"); save() on the file
`"f"` containing `"k = v\n"` leaves the mapping containing key `k` (silently
re-inserted with empty text by `dict[line.content]` during write, because
the read had duplicated the ValueRef entry and pop removed only the first)
while the key-order sequence is empty — membership of the two containers
differs, refuting the claimed invariant for sequences that include load. -/
theorem C7_counterexample :
    mapContains c7Final.sec.dict (strOf "k") = true ∧
    c7Final.sec.keys = [] ∧
    ¬ secInv c7Final.sec := by
  refine ⟨by decide, by decide, by decide⟩

/-- C7 amended: for documents manipulated through the programmatic API
(insert, update, mutable subscript, get, pop, remove, clear, save — any
sequence, starting from any well-formed state such as a fresh document), the
key-order sequence and the mapping's key set remain identical in membership
(with iteration following the key order, which is how `begin()/end()` are
defined); a load alone also (re)establishes this invariant.  Sequences that
combine load with pop/remove and then save can break it, because load
duplicates each ValueRef line entry and write's map subscript re-inserts
stale keys (see the counterexample). -/
theorem C7_amended (p : IniParser) (ops : List IniOp) (h : iniWF p)
    (pl : IniParser) (q : Str) (fs : FileSys) :
    (secInv (applyIniOps p ops).sec ∧ iniWF (applyIniOps p ops)) ∧
    secInv ((pl.load q fs).sec) :=
  ⟨⟨(applyIniOps_WF p ops h).1, applyIniOps_WF p ops h⟩, load_secInv pl q fs⟩

/-- Witness for C7 at the empty document and the sample operation
sequence `c7Ops`. -/
theorem C7_amended_witness :
    iniWF ({} : IniParser) ∧
    ((secInv (applyIniOps {} c7Ops).sec ∧ iniWF (applyIniOps {} c7Ops)) ∧
     secInv ((({} : IniParser).load (strOf "f") []).sec)) :=
  ⟨by decide, C7_amended {} c7Ops (by decide) {} (strOf "f") []⟩

/-- C8: Reading `section[unknownKey]` through the mutable subscript on a
section where `unknownKey` is absent creates the key with empty canonical
text and appends exactly one entry to the key order; subsequent identical
subscript calls add no further key-order entries (and, for the flat
document, no further line entries). -/
theorem C8_subscript_autocreate (s : ConfigSection) (p : IniParser) (k : Str)
    (hs : mapContains s.dict k = false) (hp : mapContains p.sec.dict k = false) :
    ((s.subscript k).1 = [] ∧
     (s.subscript k).2.keys = s.keys ++ [k] ∧
     mapLookup (s.subscript k).2.dict k = some [] ∧
     ((s.subscript k).2.subscript k).2 = (s.subscript k).2) ∧
    ((p.subscript k).1 = [] ∧
     (p.subscript k).2.sec.keys = p.sec.keys ++ [k] ∧
     mapLookup (p.subscript k).2.sec.dict k = some [] ∧
     (p.subscript k).2.lines = p.lines ++ [⟨ConfigType.value, k⟩] ∧
     ((p.subscript k).2.subscript k).2 = (p.subscript k).2) := by
  have emplaceLookup : ∀ m : ValueMap, mapContains m k = false →
      mapLookup (mapEmplace m k []) k = some [] := by
    intro m hm
    rw [mapEmplace, if_neg (by simp [hm]), mapLookup_append, mapLookup_eq_none m k hm]
    simp [mapLookup]
  have secCreate : (s.subscript k).2 =
      { s with dict := mapEmplace s.dict k [], keys := s.keys ++ [k] } := by
    rw [ConfigSection.subscript, if_neg (by simp [hs])]
  have secLookup : mapLookup (s.subscript k).2.dict k = some [] := by
    rw [secCreate]; exact emplaceLookup s.dict hs
  have secContains : mapContains (s.subscript k).2.dict k = true :=
    (mapContains_iff_lookup _ k).2 (by simp [secLookup])
  have pSec : (p.subscript k).2.sec = (p.sec.subscript k).2 := by
    rw [IniParser.subscript, if_neg (by simp [hp])]
  have pLookup : mapLookup (p.subscript k).2.sec.dict k = some [] := by
    rw [pSec, ConfigSection.subscript, if_neg (by simp [hp])]
    exact emplaceLookup p.sec.dict hp
  have pContains : mapContains (p.subscript k).2.sec.dict k = true :=
    (mapContains_iff_lookup _ k).2 (by simp [pLookup])
  refine ⟨⟨?_, ?_, secLookup, ?_⟩, ?_, ?_, pLookup, ?_, ?_⟩
  · rw [ConfigSection.subscript, if_neg (by simp [hs])]
  · rw [secCreate]
  · rw [ConfigSection.subscript, if_pos secContains]
  · rw [IniParser.subscript, if_neg (by simp [hp]), ConfigSection.subscript,
        if_neg (by simp [hp])]
  · rw [pSec, ConfigSection.subscript, if_neg (by simp [hp])]
  · rw [IniParser.subscript, if_neg (by simp [hp]), ConfigSection.subscript,
        if_neg (by simp [hp])]
    simp [appendLine]
  · rw [IniParser.subscript, if_pos pContains, ConfigSection.subscript,
        if_pos pContains]

/-- Witness for C8 at the empty section, the empty flat document and key
`"x"`. -/
theorem C8_subscript_autocreate_witness :
    ((({} : ConfigSection).subscript (strOf "x")).1 = [] ∧
     (({} : ConfigSection).subscript (strOf "x")).2.keys = [] ++ [strOf "x"] ∧
     mapLookup (({} : ConfigSection).subscript (strOf "x")).2.dict (strOf "x") = some [] ∧
     ((({} : ConfigSection).subscript (strOf "x")).2.subscript (strOf "x")).2
       = (({} : ConfigSection).subscript (strOf "x")).2) ∧
    ((({} : IniParser).subscript (strOf "x")).1 = [] ∧
     (({} : IniParser).subscript (strOf "x")).2.sec.keys = [] ++ [strOf "x"] ∧
     mapLookup (({} : IniParser).subscript (strOf "x")).2.sec.dict (strOf "x") = some [] ∧
     (({} : IniParser).subscript (strOf "x")).2.lines
       = [] ++ [⟨ConfigType.value, strOf "x"⟩] ∧
     ((({} : IniParser).subscript (strOf "x")).2.subscript (strOf "x")).2
       = (({} : IniParser).subscript (strOf "x")).2) :=
  C8_subscript_autocreate {} {} (strOf "x") (by decide) (by decide)

/-- C10: `save(p)` with a nonempty path rebinds the stored path to `p` before
writing (so subsequent `reload()` and argumentless `save()` operate on `p`,
both being defined in terms of the stored path); `save` with an empty or
omitted path leaves the stored path unchanged and writes to the currently
bound path, doing nothing when no path is bound. -/
theorem C10_save_path_binding (p : IniParser) (q : Str) (fs : FileSys) :
    (q ≠ [] →
      (p.save q fs).1.path = q ∧
      p.save q fs = ({ p with path := q }).write fs ∧
      (p.save q fs).2 = fsUpdate fs q (mkContent ({ p with path := q }).writeEmit.1)) ∧
    ((p.save [] fs).1.path = p.path ∧
     p.save [] fs = p.write fs) ∧
    (p.path = [] → p.save [] fs = (p, fs)) ∧
    (p.path ≠ [] →
      (p.save [] fs).2 = fsUpdate fs p.path (mkContent p.writeEmit.1)) := by
  refine ⟨fun hq => ⟨?_, ?_, ?_⟩, ⟨?_, ?_⟩, fun h0 => ?_, fun h1 => ?_⟩
  · rw [IniParser.save, if_neg hq, IniParser.write]
    by_cases hw : q = []
    · exact absurd hw hq
    · simp [hw]
  · rw [IniParser.save, if_neg hq]
  · rw [IniParser.save, if_neg hq, IniParser.write]
    simp [hq]
  · rw [IniParser.save, if_pos rfl, IniParser.write]
    by_cases hw : p.path = [] <;> simp [hw]
  · rw [IniParser.save, if_pos rfl]
  · rw [IniParser.save, if_pos rfl, IniParser.write, if_pos h0]
  · rw [IniParser.save, if_pos rfl, IniParser.write, if_neg h1]

/-- Witness for C10 at a one-key document bound to path `"a"`, saved to path
`"f"` over the empty file system. -/
theorem C10_save_path_binding_witness :
    (strOf "f" ≠ [] →
      ((({} : IniParser).insert (strOf "k") (strOf "v")).save (strOf "f") []).1.path = strOf "f" ∧
      (({} : IniParser).insert (strOf "k") (strOf "v")).save (strOf "f") []
        = ({ ({} : IniParser).insert (strOf "k") (strOf "v") with path := strOf "f" }).write [] ∧
      ((({} : IniParser).insert (strOf "k") (strOf "v")).save (strOf "f") []).2
        = fsUpdate [] (strOf "f")
            (mkContent ({ ({} : IniParser).insert (strOf "k") (strOf "v") with
                path := strOf "f" }).writeEmit.1)) ∧
    (((({} : IniParser).insert (strOf "k") (strOf "v")).save [] []).1.path
        = (({} : IniParser).insert (strOf "k") (strOf "v")).path ∧
     (({} : IniParser).insert (strOf "k") (strOf "v")).save [] []
        = (({} : IniParser).insert (strOf "k") (strOf "v")).write []) ∧
    ((({} : IniParser).insert (strOf "k") (strOf "v")).path = [] →
      (({} : IniParser).insert (strOf "k") (strOf "v")).save [] []
        = (({} : IniParser).insert (strOf "k") (strOf "v"), [])) ∧
    ((({} : IniParser).insert (strOf "k") (strOf "v")).path ≠ [] →
      ((({} : IniParser).insert (strOf "k") (strOf "v")).save [] []).2
        = fsUpdate [] (({} : IniParser).insert (strOf "k") (strOf "v")).path
            (mkContent (({} : IniParser).insert (strOf "k") (strOf "v")).writeEmit.1)) :=
  C10_save_path_binding (({} : IniParser).insert (strOf "k") (strOf "v")) (strOf "f") []

/-- C4: `pop` on a present key removes it from both the key order and the
mapping and returns its prior value, after which `exists` is false — shown
at the concrete section `{a, b}`.  `pop` on an absent key, however, does not
fail with a KeyNotFound error: `ConfigSection::pop` calls `node.mapped()` on
the empty node handle returned by `dict.extract(key)`, which is undefined
behaviour (modelled as `none`); the same holds through `IniParser::pop`. -/
theorem C4_pop_behaviour :
    (c4Section.pop (strOf "a")).map
        (fun r => (r.1, r.2.keys, r.2.existsKey (strOf "a")))
      = some (strOf "1", [strOf "b"], false) ∧
    mapContains c4Section.dict (strOf "missing") = false ∧
    c4Section.pop (strOf "missing") = none ∧
    (({} : IniParser).pop (strOf "missing")) = none := by
  refine ⟨by decide, by decide, by decide, by decide⟩

/-! ### Toolbox for the flat round trip (claim C1) -/

theorem trimS_eq_self {l : Str} (h : isTrimmed l) : trimS l = l := by
  rw [trimS, h.1, h.2, List.reverse_reverse]

theorem dropWhile_append_of_ne {l l2 : List Char} {p : Char → Bool}
    (h : l.dropWhile p = l) (hne : l ≠ []) :
    (l ++ l2).dropWhile p = l ++ l2 := by
  rw [List.dropWhile_append, h]
  simp [hne]

theorem containsChar_append (a b : Str) (c : Char) :
    containsChar (a ++ b) c = (containsChar a c || containsChar b c) := by
  simp [containsChar, List.any_append]

theorem containsChar_cons (x : Char) (a : Str) (c : Char) :
    containsChar (x :: a) c = (decide (x = c) || containsChar a c) := by
  simp [containsChar]

theorem splitFirstEq_append (a b : Str)
    (h : containsChar a '=' = false) :
    splitFirstEq (a ++ '=' :: b) = some (a, b) := by
  induction a with
  | nil => simp [splitFirstEq]
  | cons c a ih =>
      have hc : ¬(c = '=') := by
        intro hc
        rw [containsChar_cons, hc] at h
        simp at h
      have ha : containsChar a '=' = false := by
        cases hca : containsChar a '=' with
        | false => rfl
        | true => rw [containsChar_cons, hca] at h; simp at h
      rw [List.cons_append, splitFirstEq, if_neg hc, ih ha]
      rfl

theorem trimS_space_cons {v : Str} (hv : isTrimmed v) : trimS (' ' :: v) = v := by
  rw [trimS, List.dropWhile_cons, if_pos (by decide), hv.1, hv.2,
      List.reverse_reverse]

theorem trimS_append_space {k : Str} (hk : isTrimmed k) :
    trimS (k ++ [' ']) = k := by
  by_cases hk0 : k = []
  · rw [hk0]; decide
  · rw [trimS, dropWhile_append_of_ne hk.1 hk0, List.reverse_append]
    rw [show ([' '] : Str).reverse = [' '] from rfl, List.singleton_append,
        List.dropWhile_cons, if_pos (by decide), hk.2, List.reverse_reverse]

theorem reverse_ne_nil {l : Str} (h : l ≠ []) : l.reverse ≠ [] := by
  intro hr
  exact h (by simpa using congrArg List.reverse hr)

theorem trimS_pairLine_both {k v : Str} (hk : isTrimmed k) (hv : isTrimmed v)
    (hk0 : k ≠ []) (hv0 : v ≠ []) :
    trimS (k ++ strOf " = " ++ v) = k ++ strOf " = " ++ v := by
  rw [trimS]
  have h1 : (k ++ strOf " = " ++ v).dropWhile isSpaceC = k ++ strOf " = " ++ v := by
    rw [List.append_assoc]
    exact dropWhile_append_of_ne hk.1 hk0
  rw [h1]
  have h2 : (k ++ strOf " = " ++ v).reverse.dropWhile isSpaceC
      = (k ++ strOf " = " ++ v).reverse := by
    rw [List.reverse_append, List.reverse_append]
    exact dropWhile_append_of_ne hv.2 (reverse_ne_nil hv0)
  rw [h2, List.reverse_reverse]

/-- For trimmed, delimiter-free key and value, `extractValue` of the
canonical written line `"{k} = {v}"` recovers exactly the pair. -/
theorem extractValue_pair {k v : Str} (hk : isTrimmed k) (hv : isTrimmed v)
    (hk2 : containsChar k '=' = false) (_hv2 : containsChar v '=' = false) :
    extractValue (k ++ strOf " = " ++ v) = [k, v] := by
  have hka : containsChar (k ++ [' ']) '=' = false := by
    rw [containsChar_append, hk2]
    decide
  by_cases hk0 : k = []
  · by_cases hv0 : v = []
    · rw [hk0, hv0]; decide
    · have ht : trimS (k ++ strOf " = " ++ v) = '=' :: ' ' :: v := by
        rw [hk0, List.nil_append, trimS,
            show strOf " = " ++ v = ' ' :: '=' :: ' ' :: v from rfl,
            List.dropWhile_cons, if_pos (by decide),
            List.dropWhile_cons, if_neg (by decide)]
        have h2 : ('=' :: ' ' :: v).reverse.dropWhile isSpaceC
            = ('=' :: ' ' :: v).reverse := by
          rw [show ('=' :: ' ' :: v) = ['='] ++ ([' '] ++ v) from rfl,
              List.reverse_append, List.reverse_append, List.append_assoc]
          exact dropWhile_append_of_ne hv.2 (reverse_ne_nil hv0)
        rw [h2, List.reverse_reverse]
      rw [extractValue, ht,
          show ('=' :: ' ' :: v) = [] ++ '=' :: (' ' :: v) from rfl,
          splitFirstEq_append [] (' ' :: v) (by decide), hk0]
      show [trimS [], trimS (' ' :: v)] = [[], v]
      rw [trimS_space_cons hv]
      rfl
  · by_cases hv0 : v = []
    · have ht : trimS (k ++ strOf " = " ++ v) = k ++ [' ', '='] := by
        rw [hv0, List.append_nil, trimS,
            dropWhile_append_of_ne hk.1 hk0, List.reverse_append,
            show (strOf " = ").reverse = ' ' :: '=' :: ' ' :: [] from rfl,
            show ((' ' :: '=' :: ' ' :: [] : Str) ++ k.reverse)
              = ' ' :: '=' :: ' ' :: k.reverse from rfl,
            List.dropWhile_cons, if_pos (by decide),
            List.dropWhile_cons, if_neg (by decide),
            show ('=' :: ' ' :: k.reverse : Str)
              = ['='] ++ ([' '] ++ k.reverse) from rfl,
            List.reverse_append, List.reverse_append, List.reverse_reverse,
            List.append_assoc]
        rfl
      rw [extractValue, ht, hv0,
          show (k ++ [' ', '='] : Str) = (k ++ [' ']) ++ '=' :: [] from by
            rw [List.append_assoc]
            rfl,
          splitFirstEq_append (k ++ [' ']) [] hka]
      show [trimS (k ++ [' ']), trimS []] = [k, []]
      rw [trimS_append_space hk]
      rfl
    · have ht := trimS_pairLine_both hk hv hk0 hv0
      rw [extractValue, ht,
          show (k ++ strOf " = " ++ v : Str) = (k ++ [' ']) ++ '=' :: (' ' :: v)
            from by
              rw [List.append_assoc, List.append_assoc]
              rfl,
          splitFirstEq_append (k ++ [' ']) (' ' :: v) hka]
      show [trimS (k ++ [' ']), trimS (' ' :: v)] = [k, v]
      rw [trimS_append_space hk, trimS_space_cons hv]

theorem startsWith_hash_cons (c : Char) (t : Str) :
    startsWithC (c :: t) (strOf "#") = ('#' == c) := by
  simp [startsWithC, strOf, List.isPrefixOf]

/-- The canonical written value line is never classified as a comment. -/
theorem isComment_pairLine {k v : Str} (hgk : goodKey k) (hv : isTrimmed v)
    (_hv0' : containsChar v '=' = false) :
    isComment (k ++ strOf " = " ++ v) = false := by
  rw [isComment]
  by_cases hk0 : k = []
  · by_cases hv0 : v = []
    · rw [hk0, hv0]; decide
    · have ht : trimS (k ++ strOf " = " ++ v) = '=' :: ' ' :: v := by
        rw [hk0, List.nil_append, trimS,
            show strOf " = " ++ v = ' ' :: '=' :: ' ' :: v from rfl,
            List.dropWhile_cons, if_pos (by decide),
            List.dropWhile_cons, if_neg (by decide)]
        have h2 : ('=' :: ' ' :: v).reverse.dropWhile isSpaceC
            = ('=' :: ' ' :: v).reverse := by
          rw [show ('=' :: ' ' :: v) = ['='] ++ ([' '] ++ v) from rfl,
              List.reverse_append, List.reverse_append, List.append_assoc]
          exact dropWhile_append_of_ne hv.2 (reverse_ne_nil hv0)
        rw [h2, List.reverse_reverse]
      rw [ht, startsWith_hash_cons]
      decide
  · obtain ⟨c, k', hck⟩ : ∃ c k', k = c :: k' := by
      cases hke : k with
      | nil => exact absurd hke hk0
      | cons c k' => exact ⟨c, k', rfl⟩
    have hb : ('#' == c) = false := by
      have := hgk.2.2.2
      rw [hck, startsWith_hash_cons] at this
      exact this
    by_cases hv0 : v = []
    · have ht : trimS (k ++ strOf " = " ++ v) = k ++ [' ', '='] := by
        rw [hv0, List.append_nil, trimS,
            dropWhile_append_of_ne hgk.1.1 hk0, List.reverse_append,
            show (strOf " = ").reverse = ' ' :: '=' :: ' ' :: [] from rfl,
            show ((' ' :: '=' :: ' ' :: [] : Str) ++ k.reverse)
              = ' ' :: '=' :: ' ' :: k.reverse from rfl,
            List.dropWhile_cons, if_pos (by decide),
            List.dropWhile_cons, if_neg (by decide),
            show ('=' :: ' ' :: k.reverse : Str)
              = ['='] ++ ([' '] ++ k.reverse) from rfl,
            List.reverse_append, List.reverse_append, List.reverse_reverse,
            List.append_assoc]
        rfl
      rw [ht, hck, List.cons_append, startsWith_hash_cons]
      exact hb
    · have ht := trimS_pairLine_both hgk.1 hv hk0 hv0
      rw [ht, hck, List.cons_append, List.cons_append, startsWith_hash_cons]
      exact hb

/-- The canonical written value line is never blank. -/
theorem isEmptyLine_pairLine (k v : Str) :
    isEmptyLine (k ++ strOf " = " ++ v) = false := by
  have hm : '=' ∈ trimS (k ++ strOf " = " ++ v) :=
    mem_trimS_of_mem
      (List.mem_append.2 (Or.inl (List.mem_append.2 (Or.inr (by decide)))))
      (by decide)
  cases hts : trimS (k ++ strOf " = " ++ v) with
  | nil => rw [hts] at hm; cases hm
  | cons a t =>
      simp only [isEmptyLine, hts]
      rfl

/-- The canonical written value line is recognised as a value line. -/
theorem isValue_pairLine (k v : Str) :
    isValue (k ++ strOf " = " ++ v) = true := by
  rw [isValue, containsChar_append, containsChar_append,
      show containsChar (strOf " = ") '=' = true from by decide]
  simp

/-- What `IniParser::read` does with one comment line. -/
theorem readLine_comment (p : IniParser) {c : Str} (hc : goodComment c) :
    IniParser.readLine p c
      = { p with lines := p.lines ++ [⟨ConfigType.comment, c⟩] } := by
  have h1 : isComment c = true := by
    rw [isComment, trimS_eq_self hc.1]
    exact hc.2.1
  rw [IniParser.readLine, if_pos h1, trimS_eq_self hc.1]
  rfl

/-- What `IniParser::read` does with one blank line. -/
theorem readLine_blank (p : IniParser) :
    IniParser.readLine p []
      = { p with lines := p.lines ++ [⟨ConfigType.emptyLine, []⟩] } := rfl

/-- What `IniParser::read` does with one canonical value line whose key is
new: it appends the ValueRef entry twice (once itself, once through
`insert`) and extends the dict and key order. -/
theorem readLine_pair (p : IniParser) {k v : Str} (hgk : goodKey k)
    (hgv : goodVal v) (hfresh : mapContains p.sec.dict k = false) :
    IniParser.readLine p (k ++ strOf " = " ++ v)
      = { p with
          lines := p.lines ++ [⟨ConfigType.value, k⟩, ⟨ConfigType.value, k⟩],
          sec := ⟨p.sec.dict ++ [(k, v)], p.sec.keys ++ [k]⟩ } := by
  rw [IniParser.readLine,
      if_neg (by rw [isComment_pairLine hgk hgv.1 hgv.2.1]; exact Bool.false_ne_true),
      if_neg (by rw [isEmptyLine_pairLine]; exact Bool.false_ne_true),
      if_pos (isValue_pairLine k v),
      extractValue_pair hgk.1 hgv.1 hgk.2.1 hgv.2.1]
  show ({ p with lines := appendLine p.lines ConfigType.value k }).insert k v = _
  rw [IniParser.insert]
  rw [if_neg (by show ¬(mapContains p.sec.dict k = true); rw [hfresh]; exact Bool.false_ne_true)]
  rw [ConfigSection.insert, if_neg (by show ¬(mapContains p.sec.dict k = true); rw [hfresh]; exact Bool.false_ne_true)]
  rw [mapEmplace, if_neg (by show ¬(mapContains p.sec.dict k = true); rw [hfresh]; exact Bool.false_ne_true)]
  simp [appendLine]

theorem mapLookup_self_nodup (m : ValueMap)
    (hnd : (m.map Prod.fst).Nodup) :
    ∀ kv ∈ m, mapLookup m kv.1 = some kv.2 := by
  induction m with
  | nil => intro kv hkv; cases hkv
  | cons e m ih =>
      intro kv hkv
      rcases List.mem_cons.1 hkv with h1 | h1
      · rw [h1, mapLookup, if_pos rfl]
      · have hne : ¬(e.1 = kv.1) := by
          intro he
          have h2 : kv.1 ∈ m.map Prod.fst := List.mem_map.2 ⟨kv, h1, rfl⟩
          rw [List.map_cons, List.nodup_cons] at hnd
          exact hnd.1 (he ▸ h2)
        rw [mapLookup, if_neg hne]
        exact ih (List.nodup_cons.1 (by rwa [List.map_cons] at hnd)).2 kv h1

theorem mkFlat_value_contains (es : List FlatEntry) :
    ∀ l ∈ (mkFlat es).lines, l.type = ConfigType.value →
      mapContains (entryPairs es) l.content = true := by
  induction es with
  | nil => intro l hl; cases hl
  | cons e es ih =>
      intro l hl hty
      rw [show (mkFlat (e :: es)).lines = flatLineOf e :: (mkFlat es).lines
            from rfl] at hl
      rcases List.mem_cons.1 hl with h1 | h1
      · cases e with
        | commentE c => rw [h1] at hty; cases hty
        | blankE => rw [h1] at hty; cases hty
        | pairE k v =>
            rw [h1]
            show mapContains (entryPairs (FlatEntry.pairE k v :: es)) k = true
            rw [entryPairs, mapContains_cons]
            simp
      · cases e with
        | commentE c => rw [entryPairs]; exact ih l h1 hty
        | blankE => rw [entryPairs]; exact ih l h1 hty
        | pairE k v =>
            rw [entryPairs, mapContains_cons, ih l h1 hty]
            simp

theorem emit_mkFlat (es : List FlatEntry) (D : ValueMap)
    (hl : ∀ kv ∈ entryPairs es, mapLookup D kv.1 = some kv.2) :
    (es.map flatLineOf).flatMap (iniEmitLine D) = es.flatMap emitE := by
  induction es with
  | nil => rfl
  | cons e es ih =>
      rw [List.map_cons, List.flatMap_cons, List.flatMap_cons]
      cases e with
      | commentE c =>
          rw [ih (fun kv hkv => hl kv (by rwa [entryPairs]))]
          rfl
      | blankE =>
          rw [ih (fun kv hkv => hl kv (by rwa [entryPairs]))]
          rfl
      | pairE k v =>
          have hk : mapLookup D k = some v := by
            have := hl (k, v) (by rw [entryPairs]; exact List.mem_cons_self _ _)
            exact this
          have hlines : iniEmitLine D (flatLineOf (FlatEntry.pairE k v))
              = emitE (FlatEntry.pairE k v) := by
            rw [flatLineOf, iniEmitLine]
            show [k ++ strOf " = " ++ (mapLookup D k).getD []] = emitE (FlatEntry.pairE k v)
            rw [hk, emitE]
            rfl
          rw [hlines, ih (fun kv hkv => hl kv (by
            rw [entryPairs]
            exact List.mem_cons_of_mem _ hkv))]

theorem splitNL_pair (l t : Str) (h : containsChar l '\n' = false) :
    splitNL (l ++ '\n' :: t) = l :: splitNL t := by
  induction l with
  | nil => rw [List.nil_append, splitNL, if_pos rfl]
  | cons c l ih =>
      have hc : ¬(c = '\n') := by
        intro he
        rw [containsChar_cons, he] at h
        simp at h
      have hl : containsChar l '\n' = false := by
        cases hcl : containsChar l '\n' with
        | false => rfl
        | true => rw [containsChar_cons, hcl] at h; simp at h
      rw [List.cons_append, splitNL, if_neg hc, ih hl]

theorem splitNL_mkContent (ls : List Str)
    (h : ∀ l ∈ ls, containsChar l '\n' = false) :
    splitNL (mkContent ls) = ls ++ [[]] := by
  induction ls with
  | nil => rfl
  | cons l ls ih =>
      have hstep : mkContent (l :: ls) = l ++ '\n' :: mkContent ls := by
        rw [mkContent, List.map_cons, List.flatten_cons, List.append_assoc]
        rfl
      rw [hstep, splitNL_pair l _ (h l (List.mem_cons_self l ls)),
          ih (fun l2 hl2 => h l2 (List.mem_cons_of_mem _ hl2)), List.cons_append]

theorem fsLookup_fsUpdate (fs : FileSys) (p c : Str) :
    fsLookup (fsUpdate fs p c) p = some c := by
  induction fs with
  | nil => rw [fsUpdate, fsLookup, if_pos rfl]
  | cons e fs ih =>
      rw [fsUpdate]
      split
      case isTrue he => rw [fsLookup, if_pos rfl]
      case isFalse he => rw [fsLookup, if_neg he]; exact ih

/-- Reading back the emitted blocks of a well-formed fresh-keyed flat entry
list accumulates the duplicated ValueRef lines and rebuilds dict and key
order in entry order. -/
theorem readFlat_fold (es : List FlatEntry) (p : IniParser)
    (hwf : ∀ e ∈ es, wfEntry e)
    (hnd : ((entryPairs es).map Prod.fst).Nodup)
    (hfresh : ∀ kv ∈ entryPairs es, mapContains p.sec.dict kv.1 = false) :
    ((es.flatMap emitE).foldl IniParser.readLine p)
      = { p with
          lines := p.lines ++ expandFlat es,
          sec := ⟨p.sec.dict ++ entryPairs es,
                  p.sec.keys ++ (entryPairs es).map Prod.fst⟩ } := by
  induction es generalizing p with
  | nil =>
      show p = _
      rw [expandFlat, entryPairs]
      simp
  | cons e es ih =>
      rw [List.flatMap_cons, List.foldl_append]
      cases e with
      | commentE c =>
          rw [show emitE (FlatEntry.commentE c) = [c] from rfl]
          rw [show ([c] : List Str).foldl IniParser.readLine p
                = IniParser.readLine p c from rfl]
          rw [readLine_comment p (hwf _ (List.mem_cons_self _ _))]
          rw [ih { p with lines := p.lines ++ [⟨ConfigType.comment, c⟩] }
                (fun e2 he2 => hwf e2 (List.mem_cons_of_mem _ he2))
                (by rwa [entryPairs] at hnd)
                (fun kv hkv => hfresh kv (by rwa [entryPairs]))]
          rw [expandFlat, entryPairs]
          simp
      | blankE =>
          rw [show emitE FlatEntry.blankE = [[]] from rfl]
          rw [show ([[]] : List Str).foldl IniParser.readLine p
                = IniParser.readLine p [] from rfl]
          rw [readLine_blank p]
          rw [ih { p with lines := p.lines ++ [⟨ConfigType.emptyLine, []⟩] }
                (fun e2 he2 => hwf e2 (List.mem_cons_of_mem _ he2))
                (by rwa [entryPairs] at hnd)
                (fun kv hkv => hfresh kv (by rwa [entryPairs]))]
          rw [expandFlat, entryPairs]
          simp
      | pairE k v =>
          have hek : wfEntry (FlatEntry.pairE k v) :=
            hwf _ (List.mem_cons_self _ _)
          have hfk : mapContains p.sec.dict k = false :=
            hfresh (k, v) (by rw [entryPairs]; exact List.mem_cons_self _ _)
          rw [show emitE (FlatEntry.pairE k v) = [k ++ strOf " = " ++ v] from rfl]
          rw [show ([k ++ strOf " = " ++ v] : List Str).foldl IniParser.readLine p
                = IniParser.readLine p (k ++ strOf " = " ++ v) from rfl]
          rw [readLine_pair p hek.1 hek.2 hfk]
          have hnd2 : ((entryPairs es).map Prod.fst).Nodup := by
            rw [entryPairs, List.map_cons, List.nodup_cons] at hnd
            exact hnd.2
          have hknotin : k ∉ (entryPairs es).map Prod.fst := by
            rw [entryPairs, List.map_cons, List.nodup_cons] at hnd
            exact hnd.1
          rw [ih { p with
                lines := p.lines ++ [⟨ConfigType.value, k⟩, ⟨ConfigType.value, k⟩],
                sec := ⟨p.sec.dict ++ [(k, v)], p.sec.keys ++ [k]⟩ }
                (fun e2 he2 => hwf e2 (List.mem_cons_of_mem _ he2)) hnd2
                (fun kv hkv => by
                  show mapContains (p.sec.dict ++ [(k, v)]) kv.1 = false
                  rw [mapContains_append, hfresh kv (by
                        rw [entryPairs]
                        exact List.mem_cons_of_mem _ hkv)]
                  have hne : ¬(k = kv.1) := by
                    intro he
                    exact hknotin (he ▸ List.mem_map.2 ⟨kv, hkv, rfl⟩)
                  rw [show mapContains [(k, v)] kv.1 = decide (k = kv.1) from by
                        simp [mapContains]]
                  simp [hne])]
          rw [expandFlat, entryPairs]
          simp

/-- C1 counterexample: for the flat document holding the single pair
`k = v`, save-then-load does not reproduce the blank-line positions: the
loaded document has a blank line entry (the EOF read of the trailing
newline) that the original does not, so the claim as stated fails. -/
theorem C1_counterexample : ¬ claimC1 c1CexDoc (strOf "f") [] := by
  intro h
  exact absurd h.2.2.2 (by decide)

/-- C1 amended: for every flat-dialect document built purely from comment
lines, blank lines, and unique key/value pairs (keys and values trimmed,
free of `=` and newlines, keys not starting with `#`), calling save and then
load on the saved text reproduces the dict and key order exactly (same keys,
same order, equal string-form values); the line model reproduces every
comment and blank line in order, but every ValueRef entry is duplicated
(read appends it once itself and once through insert), shifting subsequent
comment/blank positions, and one extra blank line entry is appended at the
end, from the `getline` loop's final read at end of file. -/
theorem read_found {p : IniParser} {fs : FileSys} {c : Str}
    (h : fsLookup fs p.path = some c) :
    p.read fs = (splitNL c).foldl IniParser.readLine p := by
  rw [IniParser.read, h]

theorem C1_amended (es : List FlatEntry) (q : Str) (fs : FileSys)
    (hwf : wfEntries es) (hq : q ≠ []) :
    (saveLoad (mkFlat es) q fs).sec = (mkFlat es).sec ∧
    (saveLoad (mkFlat es) q fs).lines
      = expandFlat es ++ [⟨ConfigType.emptyLine, []⟩] := by
  have hstale : ∀ l ∈ ({ mkFlat es with path := q } : IniParser).lines,
      l.type = ConfigType.value →
      mapContains ({ mkFlat es with path := q } : IniParser).sec.dict l.content
        = true := fun l hl ht => mkFlat_value_contains es l hl ht
  have hemit : ({ mkFlat es with path := q } : IniParser).writeEmit
      = (es.flatMap emitE, entryPairs es) := by
    rw [IniParser.writeEmit,
        foldl_iniWriteStep _ _ [] hstale, List.nil_append]
    show ((es.map flatLineOf).flatMap (iniEmitLine (entryPairs es)), entryPairs es) = _
    rw [emit_mkFlat es (entryPairs es) (mapLookup_self_nodup _ hwf.2)]
  have hnolf : ∀ l ∈ es.flatMap emitE, containsChar l '\n' = false := by
    intro l hl
    rcases List.mem_flatMap.1 hl with ⟨e, he, hle⟩
    cases e with
    | commentE c =>
        rw [emitE, List.mem_singleton] at hle
        rw [hle]
        exact (hwf.1 _ he).2.2
    | blankE =>
        rw [emitE, List.mem_singleton] at hle
        rw [hle]; rfl
    | pairE k v =>
        rw [emitE, List.mem_singleton] at hle
        have hk3 : containsChar k '\n' = false := (hwf.1 _ he).1.2.2.1
        have hv3 : containsChar v '\n' = false := (hwf.1 _ he).2.2.2
        rw [hle, containsChar_append, containsChar_append, hk3, hv3,
            show containsChar (strOf " = ") '\n' = false from by decide]
        rfl
  have hsave : (mkFlat es).save q fs
      = ({ mkFlat es with path := q },
         fsUpdate fs q (mkContent (es.flatMap emitE))) := by
    rw [IniParser.save, if_neg hq, IniParser.write, if_neg hq, hemit]
    rfl
  have hfinal : saveLoad (mkFlat es) q fs
      = { path := q, errorCode := ConfigError.NO_ERROR,
          lines := expandFlat es ++ [⟨ConfigType.emptyLine, []⟩],
          sec := ⟨entryPairs es, (entryPairs es).map Prod.fst⟩ } := by
    have h1 : saveLoad (mkFlat es) q fs
        = (({ mkFlat es with path := q } : IniParser).load q
            (fsUpdate fs q (mkContent (es.flatMap emitE)))) := by
      show ((mkFlat es).save q fs).1.load q ((mkFlat es).save q fs).2 = _
      rw [hsave]
    have h2 : (({ mkFlat es with path := q } : IniParser).load q
          (fsUpdate fs q (mkContent (es.flatMap emitE))))
        = (splitNL (mkContent (es.flatMap emitE))).foldl IniParser.readLine
            { path := q, errorCode := ConfigError.NO_ERROR, lines := [], sec := {} } := by
      rw [IniParser.load, IniParser.readFile]
      rw [if_neg (show ¬((({ ({ mkFlat es with path := q } : IniParser).flush.clear
            with path := q }) : IniParser).path = []) from hq)]
      exact read_found (fsLookup_fsUpdate fs q _)
    rw [h1, h2, splitNL_mkContent _ hnolf, List.foldl_append,
        readFlat_fold es
          { path := q, errorCode := ConfigError.NO_ERROR, lines := [], sec := {} }
          hwf.1 hwf.2 (fun kv _ => rfl)]
    rw [show ∀ p0 : IniParser, ([[]] : List Str).foldl IniParser.readLine p0
          = IniParser.readLine p0 [] from fun _ => rfl, readLine_blank]
    simp
  rw [hfinal]
  exact ⟨rfl, rfl⟩

/-- Witness for C1 at a three-entry document (comment, blank, one pair). -/
theorem C1_amended_witness :
    wfEntries [FlatEntry.commentE (strOf "#c"), FlatEntry.blankE,
               FlatEntry.pairE (strOf "a") (strOf "1")] ∧
    (saveLoad (mkFlat [FlatEntry.commentE (strOf "#c"), FlatEntry.blankE,
               FlatEntry.pairE (strOf "a") (strOf "1")]) (strOf "f") []).sec
      = (mkFlat [FlatEntry.commentE (strOf "#c"), FlatEntry.blankE,
               FlatEntry.pairE (strOf "a") (strOf "1")]).sec ∧
    (saveLoad (mkFlat [FlatEntry.commentE (strOf "#c"), FlatEntry.blankE,
               FlatEntry.pairE (strOf "a") (strOf "1")]) (strOf "f") []).lines
      = expandFlat [FlatEntry.commentE (strOf "#c"), FlatEntry.blankE,
               FlatEntry.pairE (strOf "a") (strOf "1")]
          ++ [⟨ConfigType.emptyLine, []⟩] :=
  ⟨by decide,
   (C1_amended _ (strOf "f") [] (by decide) (by decide)).1,
   (C1_amended _ (strOf "f") [] (by decide) (by decide)).2⟩

/-! ### The typed-coercion round trip on the decidable fragment (claim C9) -/

theorem digitToChar_spec (d : Nat) (hd : d < 10) :
    isDigitC (digitToChar d) = true ∧ (digitToChar d).toNat - 48 = d ∧
    isSpaceC (digitToChar d) = false ∧ digitToChar d ≠ '-' ∧
    digitToChar d ≠ '+' := by
  interval_cases d <;> exact ⟨by decide, by decide, by decide, by decide, by decide⟩

theorem natToStr_chars (n : Nat) :
    ∀ c ∈ natToStr n, ∃ d, d < 10 ∧ c = digitToChar d := by
  rw [natToStr]
  split
  · intro c hc
    rw [List.mem_singleton] at hc
    exact ⟨0, by omega, hc⟩
  · intro c hc
    rw [List.mem_reverse, List.mem_map] at hc
    obtain ⟨d, hd, hdc⟩ := hc
    exact ⟨d, Nat.digits_lt_base (by norm_num) hd, hdc.symm⟩

theorem natToStr_ne_nil (n : Nat) : natToStr n ≠ [] := by
  rw [natToStr]
  split
  · simp
  · case isFalse h =>
      intro hh
      apply h
      apply Nat.digits_eq_nil_iff_eq_zero.1
      have hlen := congrArg List.length hh
      simpa using hlen

theorem takeWhile_eq_self {p : Char → Bool} {l : Str}
    (h : ∀ c ∈ l, p c = true) : l.takeWhile p = l := by
  induction l with
  | nil => rfl
  | cons c l ih =>
      rw [List.takeWhile_cons, if_pos (h c (List.mem_cons_self _ _)),
          ih (fun c2 hc2 => h c2 (List.mem_cons_of_mem _ hc2))]

theorem foldl_digits_eq (l : List Nat) (a : Nat) (hl : ∀ d ∈ l, d < 10) :
    ((l.map digitToChar).reverse).foldl (fun x c => x * 10 + (c.toNat - 48)) a
      = a * 10 ^ l.length + Nat.ofDigits 10 l := by
  induction l generalizing a with
  | nil => simp [Nat.ofDigits]
  | cons d l ih =>
      rw [List.map_cons, List.reverse_cons, List.foldl_append,
          ih a (fun d2 h2 => hl d2 (List.mem_cons_of_mem _ h2)),
          show ∀ x : Nat, ([digitToChar d] : Str).foldl
              (fun x c => x * 10 + (c.toNat - 48)) x
            = x * 10 + ((digitToChar d).toNat - 48) from fun _ => rfl,
          (digitToChar_spec d (hl d (List.mem_cons_self _ _))).2.1,
          Nat.ofDigits_cons, List.length_cons, pow_succ]
      ring

theorem parseNat_natToStr (n : Nat) : parseNat (natToStr n) = some n := by
  by_cases h0 : n = 0
  · rw [h0]; decide
  · have hchars : ∀ c ∈ natToStr n, isDigitC c = true := by
      intro c hc
      obtain ⟨d, hd, hdc⟩ := natToStr_chars n c hc
      rw [hdc]
      exact (digitToChar_spec d hd).1
    show (if (natToStr n).takeWhile isDigitC = [] then none
          else some (((natToStr n).takeWhile isDigitC).foldl
            (fun a c => a * 10 + (c.toNat - 48)) 0))
        = some n
    rw [takeWhile_eq_self hchars, if_neg (natToStr_ne_nil n)]
    congr 1
    rw [natToStr, if_neg h0,
        foldl_digits_eq _ 0 (fun d hd => Nat.digits_lt_base (by norm_num) hd)]
    simp [Nat.ofDigits_digits]

theorem natToStr_head_facts (n : Nat) :
    (natToStr n).dropWhile isSpaceC = natToStr n ∧
    (natToStr n).head? ≠ some '-' ∧ (natToStr n).head? ≠ some '+' := by
  cases hns : natToStr n with
  | nil => exact absurd hns (natToStr_ne_nil n)
  | cons c t =>
      obtain ⟨d, hd, hdc⟩ := natToStr_chars n c (by
        rw [hns]; exact List.mem_cons_self _ _)
      refine ⟨?_, ?_, ?_⟩
      · rw [List.dropWhile_cons,
            if_neg (by rw [hdc, (digitToChar_spec d hd).2.2.1]
                       exact Bool.false_ne_true)]
      · intro hh
        rw [List.head?] at hh
        exact (digitToChar_spec d hd).2.2.2.1 (by
          rw [← hdc]; exact Option.some.inj hh)
      · intro hh
        rw [List.head?] at hh
        exact (digitToChar_spec d hd).2.2.2.2 (by
          rw [← hdc]; exact Option.some.inj hh)

theorem stoi_setDataInt (v : Int) (h1 : -(2 ^ 31) ≤ v) (h2 : v < 2 ^ 31) :
    stoi (setDataInt v) = some v := by
  rw [setDataInt]
  by_cases hneg : v < 0
  · rw [if_pos hneg, stoi]
    show (if (('-' :: natToStr v.natAbs).dropWhile isSpaceC).head? = some '-' then
            (parseNat ((('-' :: natToStr v.natAbs).dropWhile isSpaceC).drop 1)).map
              (fun n => -(Int.ofNat n))
          else if (('-' :: natToStr v.natAbs).dropWhile isSpaceC).head? = some '+' then
            (parseNat ((('-' :: natToStr v.natAbs).dropWhile isSpaceC).drop 1)).map
              (fun n => Int.ofNat n)
          else (parseNat (('-' :: natToStr v.natAbs).dropWhile isSpaceC)).map
              (fun n => Int.ofNat n)).bind
            (fun w => if -(2 ^ 31) ≤ w ∧ w < 2 ^ 31 then some w else none)
        = some v
    rw [show ('-' :: natToStr v.natAbs).dropWhile isSpaceC
          = '-' :: natToStr v.natAbs from by
        rw [List.dropWhile_cons, if_neg (by decide)]]
    rw [if_pos (show ('-' :: natToStr v.natAbs).head? = some '-' from rfl),
        show ('-' :: natToStr v.natAbs).drop 1 = natToStr v.natAbs from rfl,
        parseNat_natToStr, Option.map_some']
    have hv : -(Int.ofNat v.natAbs) = v := by
      rw [Int.ofNat_eq_natCast]
      omega
    rw [hv]
    show (if -(2 ^ 31) ≤ v ∧ v < 2 ^ 31 then some v else none) = some v
    rw [if_pos ⟨h1, h2⟩]
  · rw [if_neg hneg, stoi]
    obtain ⟨hd1, hd2, hd3⟩ := natToStr_head_facts v.toNat
    show (if ((natToStr v.toNat).dropWhile isSpaceC).head? = some '-' then
            (parseNat (((natToStr v.toNat).dropWhile isSpaceC).drop 1)).map
              (fun n => -(Int.ofNat n))
          else if ((natToStr v.toNat).dropWhile isSpaceC).head? = some '+' then
            (parseNat (((natToStr v.toNat).dropWhile isSpaceC).drop 1)).map
              (fun n => Int.ofNat n)
          else (parseNat ((natToStr v.toNat).dropWhile isSpaceC)).map
              (fun n => Int.ofNat n)).bind
            (fun w => if -(2 ^ 31) ≤ w ∧ w < 2 ^ 31 then some w else none)
        = some v
    rw [hd1, if_neg hd2, if_neg hd3, parseNat_natToStr, Option.map_some']
    have hv : Int.ofNat v.toNat = v := by
      rw [Int.ofNat_eq_natCast]
      omega
    rw [hv]
    show (if -(2 ^ 31) ≤ v ∧ v < 2 ^ 31 then some v else none) = some v
    rw [if_pos ⟨h1, h2⟩]

/-- Typed coercion round trip for the fragment of claim C9 that is
shallowly embeddable: exact for bool, char and string, and exact for int
within the 32-bit range (`float`/`double` go through IEEE-754 parsing and
ostream formatting, which this development does not model). -/
theorem coercion_roundtrip_decidable_fragment :
    (∀ b : Bool, convertStringBool (setDataBool b) = some b) ∧
    (∀ c : Char, convertStringChar (setDataChar c) = some c) ∧
    (∀ s : Str, convertStringString (setDataString s) = some s) ∧
    (∀ v : Int, -(2 ^ 31) ≤ v → v < 2 ^ 31 →
       convertStringInt (setDataInt v) = some v) := by
  refine ⟨?_, ?_, ?_, ?_⟩
  · intro b; cases b <;> rfl
  · intro c; rfl
  · intro s; rfl
  · intro v h1 h2
    exact stoi_setDataInt v h1 h2

/-- C2: For the sectioned document with sections AppInfo (keys name, version)
and Settings (keys debug_mode, max_connections), after save followed by
reload, `sections()` returns ["AppInfo", "Settings"] in that order and each
section holds the same keys in insertion order with equal values. -/
theorem C2_sectioned_roundtrip :
    scenarioBReloaded.map cfgObservation = scenarioB.map cfgObservation ∧
    scenarioBReloaded.map CfgParser.sectionNames
      = some [strOf "AppInfo", strOf "Settings"] := by
  constructor
  · decide
  · decide

end ConfigParserProof
